import Mathlib

/-!
Verification of the container primitives and client algorithms of the
`examples` repository: the cvector/vector sequence containers, the
cmap/hashset associative containers, the fragment reassembler and the
spellchecker, shallowly embedded from the C sources.

Conventions of the embedding:
* a C string is modelled as the list of its byte values (`CStr`), the
  terminating NUL excluded;
* machine integers are modelled as `ℕ`/`ℤ` with explicit reductions
  `% 2 ^ 64` where the C source relies on `unsigned long`/`size_t`
  wraparound;
* C `while`/`for` loops are modelled as structural recursions; where the
  loop variable is not structurally decreasing, a fuel argument bounds the
  iteration count and the caller supplies fuel that provably suffices;
* `NULL`-returning lookups become `Option`; undefined behaviour that the
  control flow can actually reach (freeing `a[-1]`, `strlen(NULL)`) is
  modelled as an `Option.none` ("crash") result of the enclosing operation.
-/

/-- A C string, as the list of its byte values (NUL terminator excluded). -/
abbrev CStr := List ℕ

/-- Byte list of a string literal, for concrete inputs. -/
def str (s : String) : CStr := s.toList.map Char.toNat

/-! ## The cmap associative container (cmap.c, `src/unnamed/part_003`)

A bucket is the linked list of its entries in link order; an entry is the
pair of its key and its value.  The `next` pointer of a node is the list
structure itself. -/

/-- The multiplier of the linear-congruence string hash (cmap.c `hash`). -/
def MULTIPLIER : ℕ := 2630849305

/-- Cardinality of C `unsigned long` on the 64-bit targets the Makefiles build for. -/
def ULONG_CARD : ℕ := 2 ^ 64

/-- Embedding of cmap.c `hash` (lines 43-52): linear-congruence accumulation
over the bytes of the key in `unsigned long` arithmetic, reduced mod the
bucket count. -/
def cmapHash (s : CStr) (n_buckets : ℕ) : ℕ :=
  (s.foldl (fun h c => (h * MULTIPLIER + c) % ULONG_CARD) 0) % n_buckets

/-- One cmap entry: key and value. -/
abbrev CMapEntry (V : Type) := CStr × V

/-- The cmap state: the bucket array (each bucket the chain of its entries in
link order) and the stored-entry count. -/
structure CMapState (V : Type) where
  buckets : List (List (CMapEntry V))
  count : ℕ
deriving DecidableEq

/-- The key-already-chained walk of `cmap_put`: overwrite the value in place at
the first node whose key matches (`some` result), or report the key absent
(`none`). -/
def putList {V : Type} : List (CMapEntry V) → CStr → V → Option (List (CMapEntry V))
  | [], _, _ => none
  | e :: t, k, v => if e.1 = k then some ((e.1, v) :: t) else (putList t k v).map (e :: ·)

/-- Embedding of `cmap_put` (cmap.c lines 145-176): overwrite the value in
place when the key is already chained in its bucket; otherwise prepend a fresh
node to the bucket's chain and increment the count. -/
def cmap_put {V : Type} (cm : CMapState V) (key : CStr) (v : V) : CMapState V :=
  let bucket_num := cmapHash key cm.buckets.length
  let chain := cm.buckets.getD bucket_num []
  match putList chain key v with
  | some chain' => { cm with buckets := cm.buckets.set bucket_num chain' }
  | none =>
      { buckets := cm.buckets.set bucket_num ((key, v) :: chain),
        count := cm.count + 1 }

/-- The chain walk of `cmap_get`: value of the first node whose key matches. -/
def getList {V : Type} : List (CMapEntry V) → CStr → Option V
  | [], _ => none
  | e :: t, k => if e.1 = k then some e.2 else getList t k

/-- Embedding of `cmap_get` (cmap.c lines 178-193): walk the chain of the
key's bucket; `none` models the `NULL` (NotFound) return. -/
def cmap_get {V : Type} (cm : CMapState V) (key : CStr) : Option V :=
  getList (cm.buckets.getD (cmapHash key cm.buckets.length) []) key

/-- A cmap fresh from `cmap_create` whose bucket array genuinely has `n`
(allocated) buckets — the state `cmap_create` builds when called with a
positive capacity hint `n`. -/
def cmap_empty (V : Type) (n : ℕ) : CMapState V := ⟨List.replicate n [], 0⟩

/-- Run a sequence of `cmap_put` operations, oldest first, on a fresh map. -/
def applyPuts (V : Type) (n : ℕ) (ops : List (CStr × V)) : CMapState V :=
  ops.foldl (fun cm p => cmap_put cm p.1 p.2) (cmap_empty V n)

/-- The value of the most recent put to key `k` in `ops` (`none` if never put). -/
def mostRecentPut {V : Type} (ops : List (CStr × V)) (k : CStr) : Option V :=
  ops.foldl (fun acc p => if p.1 = k then some p.2 else acc) none

/-! ### Chain-level lemmas -/

theorem putList_eq_none_iff {V : Type} (b : List (CMapEntry V)) (k : CStr) (v : V) :
    putList b k v = none ↔ getList b k = none := by
  induction b with
  | nil => simp [putList, getList]
  | cons e t ih =>
      by_cases h : e.1 = k <;> simp [putList, getList, h, ih]

theorem putList_some_spec {V : Type} {b b' : List (CMapEntry V)} {k : CStr} {v : V}
    (h : putList b k v = some b') :
    getList b' k = some v ∧
    (∀ k', k' ≠ k → getList b' k' = getList b k') ∧
    b'.map Prod.fst = b.map Prod.fst := by
  induction b generalizing b' with
  | nil => simp [putList] at h
  | cons e t ih =>
      by_cases he : e.1 = k
      · simp only [putList, if_pos he] at h
        cases h
        refine ⟨by simp [getList, he], fun k' hk' => ?_, by simp⟩
        simp [getList, he, hk', Ne.symm hk']
      · simp only [putList, if_neg he] at h
        rcases Option.map_eq_some'.mp h with ⟨t', ht', rfl⟩
        obtain ⟨h1, h2, h3⟩ := ih ht'
        refine ⟨by simp [getList, he, h1], fun k' hk' => ?_, by simp [h3]⟩
        by_cases hek : e.1 = k'
        · simp [getList, hek]
        · simp [getList, hek, h2 k' hk']

theorem getD_set_self {α : Type _} (l : List α) (i : ℕ) (h : i < l.length) (x d : α) :
    (l.set i x).getD i d = x := by
  induction l generalizing i with
  | nil => simp at h
  | cons a t ih =>
      cases i with
      | zero => simp [List.set, List.getD]
      | succ n =>
          simp only [List.set, List.getD, List.get?]
          exact ih n (by simpa using h)

theorem getD_set_ne {α : Type _} (l : List α) (i j : ℕ) (hij : i ≠ j) (x d : α) :
    (l.set i x).getD j d = l.getD j d := by
  induction l generalizing i j with
  | nil => simp
  | cons a t ih =>
      cases i with
      | zero =>
          cases j with
          | zero => exact absurd rfl hij
          | succ m => simp [List.set, List.getD]
      | succ n =>
          cases j with
          | zero => simp [List.set, List.getD]
          | succ m =>
              simp only [List.set, List.getD, List.get?]
              exact ih n m (fun h => hij (by rw [h]))

/-- The one-step put/get exchange law of the cmap. -/
theorem cmap_get_put {V : Type} (cm : CMapState V) (k k' : CStr) (v : V)
    (hn : 0 < cm.buckets.length) :
    cmap_get (cmap_put cm k v) k' = if k' = k then some v else cmap_get cm k' := by
  have hlen : ∀ (chain : List (CMapEntry V)) i,
      (cm.buckets.set i chain).length = cm.buckets.length := by
    intro chain i; exact cm.buckets.length_set i chain
  set i := cmapHash k cm.buckets.length with hi
  have hilt : i < cm.buckets.length := Nat.mod_lt _ hn
  set chain := cm.buckets.getD i []
  unfold cmap_put
  by_cases hk : k' = k
  · subst hk
    cases hput : putList chain k' v with
    | some chain' =>
        obtain ⟨h1, _, _⟩ := putList_some_spec hput
        simp only [cmap_get, hput, hlen, if_pos rfl, ← hi]
        rw [getD_set_self _ _ hilt]
        exact h1
    | none =>
        simp only [cmap_get, hput, hlen, if_pos rfl, ← hi]
        rw [getD_set_self _ _ hilt]
        simp [getList]
  · have hne : cmapHash k' cm.buckets.length = i ∨ cmapHash k' cm.buckets.length ≠ i :=
      em _
    cases hput : putList chain k v with
    | some chain' =>
        obtain ⟨_, h2, _⟩ := putList_some_spec hput
        simp only [cmap_get, hput, hlen, if_neg hk, ← hi]
        rcases hne with he | he
        · rw [he, getD_set_self _ _ hilt]
          exact h2 k' hk
        · rw [getD_set_ne _ _ _ (fun h => he h.symm)]
    | none =>
        simp only [cmap_get, hput, hlen, if_neg hk, ← hi]
        rcases hne with he | he
        · rw [he, getD_set_self _ _ hilt]
          simp only [getList]
          rw [if_neg (show ¬(k, v).1 = k' from fun h => hk h.symm)]
        · rw [getD_set_ne _ _ _ (fun h => he h.symm)]

theorem cmap_put_buckets_length {V : Type} (cm : CMapState V) (k : CStr) (v : V) :
    (cmap_put cm k v).buckets.length = cm.buckets.length := by
  unfold cmap_put
  dsimp only
  split <;> simp

theorem getD_replicate_nil {α : Type _} (n i : ℕ) :
    (List.replicate n ([] : List α)).getD i [] = [] := by
  induction n generalizing i with
  | zero => simp
  | succ m ih =>
      cases i with
      | zero => simp [List.replicate, List.getD]
      | succ j => simpa [List.replicate, List.getD] using ih j

theorem cmap_get_empty {V : Type} (n : ℕ) (k : CStr) :
    cmap_get (cmap_empty V n) k = none := by
  simp [cmap_get, cmap_empty, getD_replicate_nil, getList]

theorem applyPuts_get {V : Type} (n : ℕ) (hn : 0 < n) (ops : List (CStr × V)) (k : CStr) :
    cmap_get (applyPuts V n ops) k = mostRecentPut ops k := by
  suffices h : ∀ (cm : CMapState V), cm.buckets.length = n →
      cmap_get (ops.foldl (fun cm p => cmap_put cm p.1 p.2) cm) k
        = ops.foldl (fun acc p => if p.1 = k then some p.2 else acc) (cmap_get cm k) by
    rw [applyPuts, mostRecentPut, h (cmap_empty V n) (by simp [cmap_empty]),
      cmap_get_empty]
  intro cm hcm
  induction ops generalizing cm with
  | nil => rfl
  | cons p t ih =>
      simp only [List.foldl_cons]
      rw [ih (cmap_put cm p.1 p.2) (by rw [cmap_put_buckets_length, hcm])]
      congr 1
      rw [cmap_get_put cm p.1 k p.2 (hcm ▸ hn)]
      by_cases h : p.1 = k
      · simp [h]
      · rw [if_neg (fun hh : k = p.1 => h hh.symm), if_neg h]

theorem cmap_put_of_some {V : Type} {cm : CMapState V} {k : CStr} {v : V}
    {chain' : List (CMapEntry V)}
    (h : putList (cm.buckets.getD (cmapHash k cm.buckets.length) []) k v = some chain') :
    cmap_put cm k v
      = { cm with buckets := cm.buckets.set (cmapHash k cm.buckets.length) chain' } := by
  unfold cmap_put
  dsimp only
  rw [h]

theorem cmap_put_of_none {V : Type} {cm : CMapState V} {k : CStr} {v : V}
    (h : putList (cm.buckets.getD (cmapHash k cm.buckets.length) []) k v = none) :
    cmap_put cm k v
      = { buckets := cm.buckets.set (cmapHash k cm.buckets.length)
            ((k, v) :: cm.buckets.getD (cmapHash k cm.buckets.length) []),
          count := cm.count + 1 } := by
  unfold cmap_put
  dsimp only
  rw [h]

theorem map_set {α β : Type _} (f : α → β) (l : List α) (i : ℕ) (x : α) :
    (l.set i x).map f = (l.map f).set i (f x) := by
  induction l generalizing i with
  | nil => simp
  | cons a t ih =>
      cases i with
      | zero => simp
      | succ j => simp [ih j]

theorem set_getD_self {α : Type _} (l : List α) (i : ℕ) (d : α) (h : i < l.length) :
    l.set i (l.getD i d) = l := by
  induction l generalizing i with
  | nil => simp at h
  | cons a t ih =>
      cases i with
      | zero => simp [List.getD]
      | succ j =>
          simp only [List.set, List.getD, List.get?, List.cons.injEq, true_and]
          exact ih j (by simpa using h)

theorem getD_map {α β : Type _} (f : α → β) (l : List α) (i : ℕ) (d : α) :
    (l.map f).getD i (f d) = f (l.getD i d) := by
  induction l generalizing i with
  | nil => simp [List.getD]
  | cons a t ih =>
      cases i with
      | zero => simp [List.getD]
      | succ j =>
          simp only [List.map, List.getD, List.get?]
          exact ih j

theorem applyPuts_buckets_length {V : Type} (n : ℕ) (ops : List (CStr × V)) :
    (applyPuts V n ops).buckets.length = n := by
  suffices h : ∀ (cm : CMapState V),
      (ops.foldl (fun cm p => cmap_put cm p.1 p.2) cm).buckets.length
        = cm.buckets.length by
    rw [applyPuts, h]
    simp [cmap_empty]
  intro cm
  induction ops generalizing cm with
  | nil => rfl
  | cons p t ih => rw [List.foldl_cons, ih, cmap_put_buckets_length]

/-- C1: after any sequence of puts on a cmap whose bucket array has a positive
number of buckets, `cmap_get k` returns exactly the value of the most recent
`cmap_put` to key `k`, and `none` (the NULL NotFound return) when `k` was
never put; moreover a further put to an already-present key leaves the entry
count and the whole per-bucket key layout (entry identity and position)
unchanged. -/
theorem C1_cmap_put_get (V : Type) (n : ℕ) (hn : 0 < n) (ops : List (CStr × V))
    (k : CStr) (v : V) :
    cmap_get (applyPuts V n ops) k = mostRecentPut ops k ∧
    (mostRecentPut ops k ≠ none →
      (cmap_put (applyPuts V n ops) k v).count = (applyPuts V n ops).count ∧
      (cmap_put (applyPuts V n ops) k v).buckets.map (List.map Prod.fst)
        = (applyPuts V n ops).buckets.map (List.map Prod.fst)) := by
  have hget := applyPuts_get n hn ops k
  refine ⟨hget, fun hpres => ?_⟩
  set st := applyPuts V n ops with hst
  have hsome : getList (st.buckets.getD (cmapHash k st.buckets.length) []) k ≠ none := by
    show cmap_get st k ≠ none
    rw [hget]
    exact hpres
  cases hput : putList (st.buckets.getD (cmapHash k st.buckets.length) []) k v with
  | none => exact absurd ((putList_eq_none_iff _ _ _).mp hput) hsome
  | some chain' =>
      obtain ⟨-, -, hkeys⟩ := putList_some_spec hput
      rw [cmap_put_of_some hput]
      refine ⟨rfl, ?_⟩
      show (st.buckets.set (cmapHash k st.buckets.length) chain').map (List.map Prod.fst)
        = st.buckets.map (List.map Prod.fst)
      have hlen : cmapHash k st.buckets.length < st.buckets.length :=
        Nat.mod_lt _ (by rw [hst, applyPuts_buckets_length]; exact hn)
      rw [map_set, hkeys]
      have : List.map Prod.fst (st.buckets.getD (cmapHash k st.buckets.length) [])
          = (st.buckets.map (List.map Prod.fst)).getD (cmapHash k st.buckets.length) [] := by
        have := getD_map (List.map Prod.fst) st.buckets (cmapHash k st.buckets.length) []
        simpa using this.symm
      rw [this, set_getD_self _ _ _ (by simpa using hlen)]

/-- Concrete run of C1: three puts (the key "a" put twice) on a 3-bucket map. -/
theorem C1_cmap_put_get_witness :
    cmap_get (applyPuts ℕ 3 [(str "a", 1), (str "b", 2), (str "a", 3)]) (str "a")
      = some 3 ∧
    (cmap_put (applyPuts ℕ 3 [(str "a", 1), (str "b", 2), (str "a", 3)]) (str "a") 9).count
      = (applyPuts ℕ 3 [(str "a", 1), (str "b", 2), (str "a", 3)]).count := by
  have h := C1_cmap_put_get ℕ 3 (by decide)
    [(str "a", 1), (str "b", 2), (str "a", 3)] (str "a") 9
  have hm : mostRecentPut [(str "a", 1), (str "b", 2), (str "a", 3)] (str "a")
      = some 3 := by decide
  exact ⟨h.1.trans hm, (h.2 (by rw [hm]; exact fun hh => Option.noConfusion hh)).1⟩

/-! ## Bounds checks of the `nth` operations (C2)

`vector_nth` (vector.c line 56) and `VectorNth` (vector_internal.h line 61)
guard with `assert(position >= 0 && position <= v->logical_length)`;
`cvec_nth` (cvector.c line 72) guards with
`assert(index >= 0 && index <= (cv->logical_length - 1))` where
`logical_length` is a `size_t`, so `index` is converted to `size_t` and
`logical_length - 1` wraps around at zero. -/

/-- Cardinality of C `size_t` (64-bit). -/
def SIZE_T_CARD : ℕ := 2 ^ 64

/-- The assert condition of `vector_nth` / `VectorNth`:
`position >= 0 && position <= v->logical_length` (both `int`). -/
def vector_nth_assert (logical_length position : ℤ) : Bool :=
  decide (0 ≤ position) && decide (position ≤ logical_length)

/-- The assert condition of `cvec_nth`:
`index >= 0 && index <= (cv->logical_length - 1)`, where `logical_length` is
`size_t`, so the second comparison converts `index` to `size_t` and computes
`logical_length - 1` with 64-bit wraparound. -/
def cvec_nth_assert (logical_length : ℕ) (index : ℤ) : Bool :=
  decide (0 ≤ index) &&
    decide (index.toNat % SIZE_T_CARD ≤ (logical_length + (SIZE_T_CARD - 1)) % SIZE_T_CARD)

/-- The bound the spec demands of `nth`: index in `[0, count)`. -/
def nthInRange (count index : ℤ) : Prop := 0 ≤ index ∧ index < count

instance (count index : ℤ) : Decidable (nthInRange count index) := by
  unfold nthInRange
  infer_instance

/-- C2: the claim fails on the code. `vector_nth` accepts `index = count`
(here count 3, index 3, and even index 0 on an empty vector), and `cvec_nth`
on an empty container accepts every nonnegative index (the `size_t`
subtraction `0 - 1` wraps to `2^64 - 1`), although the spec's `[0, count)`
bound rejects all of these. -/
theorem C2_nth_bounds_bug :
    vector_nth_assert 3 3 = true ∧ ¬nthInRange 3 3 ∧
    vector_nth_assert 0 0 = true ∧ ¬nthInRange 0 0 ∧
    cvec_nth_assert 0 5 = true ∧ ¬nthInRange 0 5 := by
  refine ⟨by decide, by decide, by decide, by decide, ?_, by decide⟩
  unfold cvec_nth_assert SIZE_T_CARD
  norm_num
  decide

/-! ## Allocation sizes of `create` with hint 0 (C3)

`cmap_create` (cmap.c lines 105-119) records
`n_buckets = capacity_hint == 0 ? 1023 : capacity_hint` but allocates the
bucket array with `calloc(capacity_hint, sizeof(void *))`;
`cvec_create` (cvector.c lines 32-47) records
`internal_length = capacity_hint == 0 ? 16 : capacity_hint` but allocates
`calloc(capacity_hint, elem_size)`. -/

/-- Default bucket count of cmap.c (`default_capacity`). -/
def cmap_default_capacity : ℕ := 1023

/-- Bucket count `cmap_create` records for a given hint. -/
def cmapNBuckets (capacity_hint : ℕ) : ℕ :=
  if capacity_hint = 0 then cmap_default_capacity else capacity_hint

/-- Number of bucket slots `cmap_create` actually allocates:
`calloc(capacity_hint, sizeof(void *))`. -/
def cmapAllocatedBuckets (capacity_hint : ℕ) : ℕ := capacity_hint

/-- Default capacity of cvector.c (`default_internal_length`). -/
def cvec_default_internal_length : ℕ := 16

/-- Capacity `cvec_create` records for a given hint. -/
def cvecInternalLength (capacity_hint : ℕ) : ℕ :=
  if capacity_hint = 0 then cvec_default_internal_length else capacity_hint

/-- Number of element slots `cvec_create` actually allocates:
`calloc(capacity_hint, elem_size)` bytes over `elem_size`. -/
def cvecAllocatedSlots (capacity_hint : ℕ) : ℕ := capacity_hint

/-- C3: the claim fails on the code. With hint 0 both creates record the
implementation default (1023 buckets / 16 slots) but allocate zero slots —
the recorded capacity exceeds the allocation, so the fresh handle's backing
array does not have the default number of allocated slots and the first
access already touches unallocated storage. -/
theorem C3_create_hint_zero_bug :
    cmapNBuckets 0 = 1023 ∧ cmapAllocatedBuckets 0 = 0 ∧
    cmapAllocatedBuckets 0 < cmapNBuckets 0 ∧
    cvecInternalLength 0 = 16 ∧ cvecAllocatedSlots 0 = 0 ∧
    cvecAllocatedSlots 0 < cvecInternalLength 0 := by
  decide

/-! ## C4: the bucket array never grows -/

/-- C4 counterexample state: seven distinct keys put into a 3-bucket cmap, so
the load factor 7/3 is past every reasonable threshold (≥ 2). -/
def c4ops : List (CStr × ℕ) :=
  [(str "a", 1), (str "b", 2), (str "c", 3), (str "d", 4),
   (str "e", 5), (str "f", 6), (str "g", 7)]

/-- C4 fails on the code: after seven puts of distinct keys into a 3-bucket
cmap the count is 7 (load factor ≥ 2), yet the bucket array still has exactly
its creation-time 3 buckets, and one more put still leaves it at 3 — no
rehash ever happens. -/
theorem C4_no_rehash_counterexample :
    (applyPuts ℕ 3 c4ops).count = 7 ∧
    2 * 3 ≤ (applyPuts ℕ 3 c4ops).count ∧
    (applyPuts ℕ 3 c4ops).buckets.length = 3 ∧
    (cmap_put (applyPuts ℕ 3 c4ops) (str "h") 8).buckets.length = 3 := by
  refine ⟨by decide, by decide, ?_, ?_⟩
  · exact applyPuts_buckets_length 3 c4ops
  · rw [cmap_put_buckets_length]
    exact applyPuts_buckets_length 3 c4ops

/-- Embedding of `hashset_enter`'s effect on the bucket array's size
(part_000 lines 92-109): the vector of the hashed bucket is rewritten, the
array of buckets itself never changes size.  `enterBucket` stands for the
search/append-sort-or-replace on the bucket's vector. -/
def hashset_enter_buckets {V : Type} (buckets : List (List V)) (bucket : ℕ)
    (enterBucket : List V → List V) : List (List V) :=
  buckets.set bucket (enterBucket (buckets.getD bucket []))

/-- C4 amended: neither associative container ever rehashes.  `cmap_put`
preserves the bucket count of any state, every put sequence leaves the
creation-time bucket count in place, and `hashset_enter` also never changes
the size of its bucket array. -/
theorem C4_bucket_count_constant (V : Type) (cm : CMapState V) (k : CStr) (v : V)
    (n : ℕ) (ops : List (CStr × V)) (buckets : List (List V)) (bucket : ℕ)
    (enterBucket : List V → List V) :
    (cmap_put cm k v).buckets.length = cm.buckets.length ∧
    (applyPuts V n ops).buckets.length = n ∧
    (hashset_enter_buckets buckets bucket enterBucket).length = buckets.length := by
  exact ⟨cmap_put_buckets_length cm k v, applyPuts_buckets_length n ops,
    List.length_set buckets bucket _⟩

/-! ## C5: the first/next traversal of the cmap -/

/-- The bucket scan of `cmap_first` (cmap.c lines 195-206): the key of the
head node of the first non-empty bucket. -/
def firstKeyAux {V : Type} : List (List (CMapEntry V)) → Option CStr
  | [] => none
  | b :: t =>
      match b with
      | [] => firstKeyAux t
      | e :: _ => some e.1

/-- Embedding of `cmap_first`. -/
def cmap_first {V : Type} (cm : CMapState V) : Option CStr :=
  firstKeyAux cm.buckets

/-- The in-chain step of `cmap_next`: the key of the node linked after the
first node carrying key `k` (the C code follows the node's next pointer; on a
chain with no duplicate keys this is that node). -/
def nextInBucket {V : Type} : List (CMapEntry V) → CStr → Option CStr
  | [], _ => none
  | e :: t, k => if e.1 = k then t.head?.map Prod.fst else nextInBucket t k

/-- Embedding of `cmap_next` (cmap.c lines 208-228): continue in the previous
key's chain if a node follows, else take the head key of the first non-empty
bucket after `hash(prev_key)`. -/
def cmap_next {V : Type} (cm : CMapState V) (prev_key : CStr) : Option CStr :=
  let prev_bucket := cmapHash prev_key cm.buckets.length
  match nextInBucket (cm.buckets.getD prev_bucket []) prev_key with
  | some k => some k
  | none => firstKeyAux (cm.buckets.drop (prev_bucket + 1))

/-- Total number of entries stored in the bucket array. -/
def totalEntries {V : Type} (cm : CMapState V) : ℕ :=
  (cm.buckets.map List.length).sum

/-- The keys visited by repeated `cmap_next` starting after a visit of `k`,
with enough fuel for the whole table.  The C client loop
`for (key = cmap_first(m); key != NULL; key = cmap_next(m, key))` performs at
most one step per stored entry, so `totalEntries` fuel is enough. -/
def traverseFrom {V : Type} (cm : CMapState V) : ℕ → CStr → List CStr
  | 0, k => [k]
  | fuel + 1, k =>
      k ::
        match cmap_next cm k with
        | none => []
        | some k' => traverseFrom cm fuel k'

/-- The full key sequence the `cmap_first`/`cmap_next` loop visits. -/
def cmap_traverse {V : Type} (cm : CMapState V) : List CStr :=
  match cmap_first cm with
  | none => []
  | some k => traverseFrom cm (totalEntries cm) k

/-- All bucket key lists, bucket index ascending. -/
def flattenKeys {V : Type} (bs : List (List (CMapEntry V))) : List CStr :=
  (bs.map (List.map Prod.fst)).flatten

/-- Well-formedness of a cmap state: every entry sits in the bucket its key
hashes to, and no key occurs twice in a chain. -/
def CMapWF {V : Type} (cm : CMapState V) : Prop :=
  (∀ i, ∀ e ∈ cm.buckets.getD i [], cmapHash e.1 cm.buckets.length = i) ∧
  (∀ i, ((cm.buckets.getD i []).map Prod.fst).Nodup)

theorem getList_eq_none_iff {V : Type} (b : List (CMapEntry V)) (k : CStr) :
    getList b k = none ↔ k ∉ b.map Prod.fst := by
  induction b with
  | nil => simp [getList]
  | cons e t ih =>
      simp only [getList, List.map_cons, List.mem_cons]
      by_cases h : e.1 = k
      · simp [h]
      · rw [if_neg h, ih]
        constructor
        · intro hk hor
          rcases hor with hor | hor
          · exact h hor.symm
          · exact hk hor
        · intro hk hmem
          exact hk (Or.inr hmem)

theorem cmap_empty_WF {V : Type} (n : ℕ) : CMapWF (cmap_empty V n) := by
  constructor <;> intro i <;> simp [cmap_empty, getD_replicate_nil]

theorem cmap_put_WF {V : Type} {cm : CMapState V} (hwf : CMapWF cm) (k : CStr) (v : V) :
    CMapWF (cmap_put cm k v) := by
  obtain ⟨hhash, hnd⟩ := hwf
  set i0 := cmapHash k cm.buckets.length with hi0
  set chain := cm.buckets.getD i0 [] with hchain
  cases hput : putList chain k v with
  | some chain' =>
      obtain ⟨-, -, hkeys⟩ := putList_some_spec hput
      rw [cmap_put_of_some (hchain ▸ hput)]
      constructor <;> intro i <;> simp only [List.length_set]
      · intro e he
        by_cases hii : i0 = i
        · subst hii
          by_cases hlt : i0 < cm.buckets.length
          · rw [getD_set_self _ _ hlt] at he
            have : e.1 ∈ chain.map Prod.fst := hkeys ▸ List.mem_map_of_mem Prod.fst he
            obtain ⟨e', he', hke⟩ := List.mem_map.mp this
            exact hke ▸ hhash i0 e' he'
          · rw [List.set_eq_of_length_le (Nat.le_of_not_lt hlt)] at he
            exact hhash i0 e he
        · rw [getD_set_ne _ _ _ hii] at he
          exact hhash i e he
      · by_cases hii : i0 = i
        · subst hii
          by_cases hlt : i0 < cm.buckets.length
          · rw [getD_set_self _ _ hlt, hkeys]
            exact hnd i0
          · rw [List.set_eq_of_length_le (Nat.le_of_not_lt hlt)]
            exact hnd i0
        · rw [getD_set_ne _ _ _ hii]
          exact hnd i
  | none =>
      have hnotmem : k ∉ chain.map Prod.fst :=
        (getList_eq_none_iff chain k).mp ((putList_eq_none_iff chain k v).mp hput)
      rw [cmap_put_of_none (hchain ▸ hput)]
      constructor <;> intro i <;> simp only [List.length_set]
      · intro e he
        by_cases hii : i0 = i
        · subst hii
          by_cases hlt : i0 < cm.buckets.length
          · rw [getD_set_self _ _ hlt] at he
            cases he with
            | head => exact hi0.symm
            | tail _ hmem => exact hhash i0 e hmem
          · rw [List.set_eq_of_length_le (Nat.le_of_not_lt hlt)] at he
            exact hhash i0 e he
        · rw [getD_set_ne _ _ _ hii] at he
          exact hhash i e he
      · by_cases hii : i0 = i
        · subst hii
          by_cases hlt : i0 < cm.buckets.length
          · rw [getD_set_self _ _ hlt]
            simp only [List.map_cons, List.nodup_cons]
            exact ⟨hnotmem, hnd i0⟩
          · rw [List.set_eq_of_length_le (Nat.le_of_not_lt hlt)]
            exact hnd i0
        · rw [getD_set_ne _ _ _ hii]
          exact hnd i

theorem applyPuts_WF {V : Type} (n : ℕ) (ops : List (CStr × V)) :
    CMapWF (applyPuts V n ops) := by
  suffices h : ∀ (cm : CMapState V), CMapWF cm →
      CMapWF (ops.foldl (fun cm p => cmap_put cm p.1 p.2) cm) by
    exact h (cmap_empty V n) (cmap_empty_WF n)
  intro cm hcm
  induction ops generalizing cm with
  | nil => exact hcm
  | cons p t ih => exact ih (cmap_put cm p.1 p.2) (cmap_put_WF hcm p.1 p.2)

theorem firstKeyAux_eq_head {V : Type} (bs : List (List (CMapEntry V))) :
    firstKeyAux bs = (flattenKeys bs).head? := by
  induction bs with
  | nil => rfl
  | cons b t ih =>
      cases b with
      | nil => simpa [firstKeyAux, flattenKeys] using ih
      | cons e b' => simp [firstKeyAux, flattenKeys]

theorem getD_drop {α : Type _} (l : List α) (i j : ℕ) (d : α) :
    (l.drop i).getD j d = l.getD (i + j) d := by
  induction i generalizing l with
  | zero => simp
  | succ m ih =>
      cases l with
      | nil => simp [List.getD]
      | cons a t =>
          rw [List.drop_succ_cons, ih t, show m + 1 + j = m + j + 1 by omega]
          rfl

theorem nextInBucket_drop {V : Type} (b : List (CMapEntry V)) (j : ℕ) (k : CStr)
    (bt : List CStr) (hnd : (b.map Prod.fst).Nodup)
    (hdrop : (b.map Prod.fst).drop j = k :: bt) :
    nextInBucket b k = bt.head? := by
  induction b generalizing j with
  | nil => simp at hdrop
  | cons e t ih =>
      rw [List.map_cons] at hnd
      cases j with
      | zero =>
          rw [List.map_cons, List.drop_zero] at hdrop
          have h1 : e.1 = k := (List.cons_eq_cons.mp hdrop).1
          have h2 : t.map Prod.fst = bt := (List.cons_eq_cons.mp hdrop).2
          simp [nextInBucket, h1, ← h2, List.head?_map]
      | succ m =>
          rw [List.map_cons, List.drop_succ_cons] at hdrop
          have hkmem : k ∈ t.map Prod.fst :=
            List.mem_of_mem_drop (hdrop ▸ List.mem_cons_self k bt)
          have hne : ¬e.1 = k := fun h => (List.nodup_cons.mp hnd).1 (h ▸ hkmem)
          simp only [nextInBucket, if_neg hne]
          exact ih m (List.nodup_cons.mp hnd).2 hdrop

theorem flattenKeys_decomp {V : Type} (bs : List (List (CMapEntry V)))
    (h : flattenKeys bs ≠ []) :
    ∃ m, m < bs.length ∧ (bs.getD m []).map Prod.fst ≠ [] ∧
      flattenKeys bs
        = (bs.getD m []).map Prod.fst ++ flattenKeys (bs.drop (m + 1)) := by
  induction bs with
  | nil => simp [flattenKeys] at h
  | cons b t ih =>
      cases hb : b with
      | nil =>
          subst hb
          have h' : flattenKeys t ≠ [] := by simpa [flattenKeys] using h
          obtain ⟨m, hm, hne, heq⟩ := ih h'
          refine ⟨m + 1, by simpa using Nat.succ_lt_succ hm, ?_, ?_⟩
          · simpa [List.getD] using hne
          · simpa [flattenKeys, List.getD] using heq
      | cons e b' =>
          refine ⟨0, by simp, by simp [hb], ?_⟩
          simp [flattenKeys, List.getD]

theorem length_flattenKeys {V : Type} (cm : CMapState V) :
    (flattenKeys cm.buckets).length = totalEntries cm := by
  unfold flattenKeys totalEntries
  rw [List.length_flatten]
  congr 1
  simp

theorem traverseFrom_spec {V : Type} (cm : CMapState V) (hwf : CMapWF cm) :
    ∀ fuel i j k bt, i < cm.buckets.length →
      ((cm.buckets.getD i []).map Prod.fst).drop j = k :: bt →
      (bt ++ flattenKeys (cm.buckets.drop (i + 1))).length ≤ fuel →
      traverseFrom cm fuel k = k :: (bt ++ flattenKeys (cm.buckets.drop (i + 1))) := by
  obtain ⟨hhash, hnd⟩ := hwf
  intro fuel
  induction fuel with
  | zero =>
      intro i j k bt hi hdrop hlen
      have h1 : bt = [] := by
        cases bt with
        | nil => rfl
        | cons x xs => simp at hlen
      subst h1
      have h2 : flattenKeys (cm.buckets.drop (i + 1)) = [] := by
        cases hfk : flattenKeys (cm.buckets.drop (i + 1)) with
        | nil => rfl
        | cons x xs => rw [hfk] at hlen; simp at hlen
      rw [h2]
      rfl
  | succ fuel ih =>
      intro i j k bt hi hdrop hlen
      have hkmem : k ∈ (cm.buckets.getD i []).map Prod.fst :=
        List.mem_of_mem_drop (hdrop ▸ List.mem_cons_self k bt)
      obtain ⟨e, he, hek⟩ := List.mem_map.mp hkmem
      have hkb : cmapHash k cm.buckets.length = i := hek ▸ hhash i e he
      have hnext : nextInBucket (cm.buckets.getD i []) k = bt.head? :=
        nextInBucket_drop _ j k bt (hnd i) hdrop
      cases bt with
      | cons k' bt' =>
          have hcn : cmap_next cm k = some k' := by
            unfold cmap_next
            dsimp only
            rw [hkb, hnext]
            rfl
          simp only [traverseFrom, hcn]
          have hdrop' : ((cm.buckets.getD i []).map Prod.fst).drop (j + 1)
              = k' :: bt' := by
            have : ((cm.buckets.getD i []).map Prod.fst).drop (j + 1)
                = (((cm.buckets.getD i []).map Prod.fst).drop j).drop 1 := by
              rw [List.drop_drop]
            rw [this, hdrop, List.drop_succ_cons, List.drop_zero]
          have hlen' : (bt' ++ flattenKeys (cm.buckets.drop (i + 1))).length ≤ fuel := by
            have := hlen
            simp only [List.length_append, List.length_cons] at this ⊢
            omega
          rw [ih i (j + 1) k' bt' hi hdrop' hlen']
          simp
      | nil =>
          cases hfk : flattenKeys (cm.buckets.drop (i + 1)) with
          | nil =>
              have hcn : cmap_next cm k = none := by
                unfold cmap_next
                dsimp only
                rw [hkb, hnext, firstKeyAux_eq_head, hfk]
                rfl
              simp only [traverseFrom, hcn]
              rfl
          | cons k2 rest =>
              have hcn : cmap_next cm k = some k2 := by
                unfold cmap_next
                dsimp only
                rw [hkb, hnext, firstKeyAux_eq_head, hfk]
                rfl
              have hne : flattenKeys (cm.buckets.drop (i + 1)) ≠ [] := by
                rw [hfk]
                exact List.cons_ne_nil k2 rest
              obtain ⟨m, hm, hbne, heq⟩ := flattenKeys_decomp _ hne
              rw [getD_drop] at hbne heq
              rw [List.drop_drop, show i + 1 + (m + 1) = i + 1 + m + 1 by omega] at heq
              set i2 := i + 1 + m with hi2
              have hi2lt : i2 < cm.buckets.length := by
                rw [List.length_drop] at hm
                omega
              obtain ⟨bt2, hbt2⟩ : ∃ bt2,
                  (cm.buckets.getD i2 []).map Prod.fst = k2 :: bt2 := by
                cases hky : (cm.buckets.getD i2 []).map Prod.fst with
                | nil => exact absurd hky hbne
                | cons a b =>
                    refine ⟨b, ?_⟩
                    rw [hfk, hky] at heq
                    have := (List.cons_eq_cons.mp heq).1
                    rw [this]
              have hflen : (k2 :: (bt2 ++ flattenKeys (cm.buckets.drop (i2 + 1))))
                  = flattenKeys (cm.buckets.drop (i + 1)) := by
                rw [heq, hbt2]
                simp
              have hlen' : (bt2 ++ flattenKeys (cm.buckets.drop (i2 + 1))).length
                  ≤ fuel := by
                have h1 : (k2 :: (bt2 ++ flattenKeys (cm.buckets.drop (i2 + 1)))).length
                    = (flattenKeys (cm.buckets.drop (i + 1))).length := by rw [hflen]
                simp only [List.length_cons] at h1
                simp only [List.nil_append] at hlen
                omega
              simp only [traverseFrom, hcn]
              rw [ih i2 0 k2 bt2 hi2lt (by rw [List.drop_zero, hbt2]) hlen']
              rw [hflen, hfk]
              rfl

/-- The first/next loop visits exactly the concatenation of the bucket key
lists, bucket index ascending, within each bucket in chain order. -/
theorem cmap_traverse_spec {V : Type} (cm : CMapState V) (hwf : CMapWF cm) :
    cmap_traverse cm = flattenKeys cm.buckets := by
  unfold cmap_traverse cmap_first
  rw [firstKeyAux_eq_head]
  cases hfk : flattenKeys cm.buckets with
  | nil => rfl
  | cons k rest =>
      have hne : flattenKeys cm.buckets ≠ [] := by
        rw [hfk]
        exact List.cons_ne_nil k rest
      obtain ⟨m, hm, hbne, heq⟩ := flattenKeys_decomp _ hne
      obtain ⟨bt, hbt⟩ : ∃ bt, (cm.buckets.getD m []).map Prod.fst = k :: bt := by
        cases hky : (cm.buckets.getD m []).map Prod.fst with
        | nil => exact absurd hky hbne
        | cons a b =>
            refine ⟨b, ?_⟩
            rw [hfk, hky] at heq
            have := (List.cons_eq_cons.mp heq).1
            rw [this]
      have hflat : flattenKeys cm.buckets
          = k :: (bt ++ flattenKeys (cm.buckets.drop (m + 1))) := by
        rw [heq, hbt]
        simp
      have hlen : (bt ++ flattenKeys (cm.buckets.drop (m + 1))).length
          ≤ totalEntries cm := by
        have h1 := length_flattenKeys cm
        rw [hflat] at h1
        simp only [List.length_cons] at h1
        omega
      show traverseFrom cm (totalEntries cm) k = k :: rest
      rw [traverseFrom_spec cm ⟨hwf.1, hwf.2⟩ (totalEntries cm) m 0 k bt hm
        (by rw [List.drop_zero, hbt]) hlen]
      exact (hfk.symm.trans hflat).symm

/-- The keys put at least once, in order of their first put. -/
def firstPutKeys {V : Type} (ops : List (CStr × V)) : List CStr :=
  ops.foldl (fun acc p => if p.1 ∈ acc then acc else acc ++ [p.1]) []

/-- Each bucket's chain carries, front to back, the reverse of the
first-insertion order of the keys that hash to it: `cmap_put` prepends new
nodes and updates old nodes in place. -/
theorem applyPuts_bucket_keys {V : Type} (n : ℕ) (hn : 0 < n) (ops : List (CStr × V)) :
    ∀ i, ((applyPuts V n ops).buckets.getD i []).map Prod.fst
      = ((firstPutKeys ops).filter (fun k => decide (cmapHash k n = i))).reverse := by
  induction ops using List.reverseRecOn with
  | nil =>
      intro i
      simp [applyPuts, cmap_empty, getD_replicate_nil, firstPutKeys]
  | append_singleton l p ih =>
      intro i
      have happ : applyPuts V n (l ++ [p]) = cmap_put (applyPuts V n l) p.1 p.2 := by
        unfold applyPuts
        rw [List.foldl_append]
        rfl
      have hfpk : firstPutKeys (l ++ [p])
          = if p.1 ∈ firstPutKeys l then firstPutKeys l
            else firstPutKeys l ++ [p.1] := by
        unfold firstPutKeys
        rw [List.foldl_append]
        rfl
      have hlen : (applyPuts V n l).buckets.length = n := applyPuts_buckets_length n l
      have hmemiff : p.1 ∈ firstPutKeys l ↔
          p.1 ∈ ((applyPuts V n l).buckets.getD (cmapHash p.1 n) []).map Prod.fst := by
        rw [ih (cmapHash p.1 n)]
        simp [List.mem_reverse, List.mem_filter]
      have hilt : cmapHash p.1 n < (applyPuts V n l).buckets.length := by
        rw [hlen]
        exact Nat.mod_lt _ hn
      have hconv : cmapHash p.1 (applyPuts V n l).buckets.length = cmapHash p.1 n := by
        rw [hlen]
      rw [happ, hfpk]
      by_cases hmem : p.1 ∈ firstPutKeys l
      · have hget : getList ((applyPuts V n l).buckets.getD
            (cmapHash p.1 (applyPuts V n l).buckets.length) []) p.1 ≠ none := by
          rw [hlen]
          exact fun hno => ((getList_eq_none_iff _ _).mp hno) (hmemiff.mp hmem)
        cases hput : putList ((applyPuts V n l).buckets.getD
            (cmapHash p.1 (applyPuts V n l).buckets.length) []) p.1 p.2 with
        | none => exact absurd ((putList_eq_none_iff _ _ _).mp hput) hget
        | some chain' =>
            obtain ⟨-, -, hkeys⟩ := putList_some_spec hput
            rw [hconv] at hkeys
            rw [cmap_put_of_some hput, if_pos hmem, ← ih i, hconv]
            by_cases hii : cmapHash p.1 n = i
            · rw [← hii, getD_set_self _ _ hilt, hkeys]
            · rw [getD_set_ne _ _ _ hii]
      · have hput : putList ((applyPuts V n l).buckets.getD
            (cmapHash p.1 (applyPuts V n l).buckets.length) []) p.1 p.2 = none := by
          rw [putList_eq_none_iff, getList_eq_none_iff, hlen]
          exact fun hmm => hmem (hmemiff.mpr hmm)
        rw [cmap_put_of_none hput, if_neg hmem, hconv]
        by_cases hii : cmapHash p.1 n = i
        · rw [← hii, getD_set_self _ _ hilt, List.map_cons]
          have hkeep : List.filter (fun k => decide (cmapHash k n = cmapHash p.1 n)) [p.1]
              = [p.1] := by
            simp
          rw [List.filter_append, hkeep, List.reverse_append, ih (cmapHash p.1 n)]
          rfl
        · rw [getD_set_ne _ _ _ hii, ih i, List.filter_append]
          have hdropp : List.filter (fun k => decide (cmapHash k n = i)) [p.1]
              = [] := by
            simp [List.filter, hii]
          rw [hdropp, List.append_nil]

/-- In a well-formed cmap no key is visited twice: chains have no duplicate
keys and a key's chain is determined by its hash. -/
theorem flattenKeys_nodup {V : Type} (cm : CMapState V) (hwf : CMapWF cm) :
    (flattenKeys cm.buckets).Nodup := by
  obtain ⟨hhash, hnd⟩ := hwf
  unfold flattenKeys
  rw [List.nodup_flatten]
  constructor
  · intro lk hlk
    obtain ⟨b, hb, rfl⟩ := List.mem_map.mp hlk
    obtain ⟨idx, hidx⟩ := List.mem_iff_get.mp hb
    have : b = cm.buckets.getD idx.1 [] := by
      rw [List.getD_eq_getElem cm.buckets [] idx.2, ← hidx]
      simp
    rw [this]
    exact hnd idx.1
  · rw [List.pairwise_iff_get]
    intro i j hij a hai haj
    have hib : (cm.buckets.map (List.map Prod.fst)).get i
        = (cm.buckets.getD i.1 []).map Prod.fst := by
      have h1 : i.1 < cm.buckets.length := by
        have := i.2
        simpa using this
      rw [List.getD_eq_getElem cm.buckets [] h1]
      simp [List.get_map]
    have hjb : (cm.buckets.map (List.map Prod.fst)).get j
        = (cm.buckets.getD j.1 []).map Prod.fst := by
      have h1 : j.1 < cm.buckets.length := by
        have := j.2
        simpa using this
      rw [List.getD_eq_getElem cm.buckets [] h1]
      simp [List.get_map]
    rw [hib] at hai
    rw [hjb] at haj
    obtain ⟨e, he, hea⟩ := List.mem_map.mp hai
    obtain ⟨e', he', hea'⟩ := List.mem_map.mp haj
    have h1 : cmapHash a cm.buckets.length = i.1 := hea ▸ hhash i.1 e he
    have h2 : cmapHash a cm.buckets.length = j.1 := hea' ▸ hhash j.1 e' he'
    have : i.1 = j.1 := h1 ▸ h2
    exact absurd (Fin.ext this) (Fin.ne_of_lt hij)

/-- C5 as amended: for every cmap state reached by puts (on a positively
sized bucket array) the first/next loop visits exactly the concatenation of
the bucket key lists in ascending bucket order; within a bucket the keys
appear in reverse first-insertion order (most recently first-put key first,
because `cmap_put` prepends new nodes); and every stored key is visited
exactly once. -/
theorem C5_traversal (V : Type) (n : ℕ) (hn : 0 < n) (ops : List (CStr × V)) :
    cmap_traverse (applyPuts V n ops) = flattenKeys (applyPuts V n ops).buckets ∧
    (∀ i, ((applyPuts V n ops).buckets.getD i []).map Prod.fst
        = ((firstPutKeys ops).filter (fun k => decide (cmapHash k n = i))).reverse) ∧
    (flattenKeys (applyPuts V n ops).buckets).Nodup :=
  ⟨cmap_traverse_spec _ (applyPuts_WF n ops),
   applyPuts_bucket_keys n hn ops,
   flattenKeys_nodup _ (applyPuts_WF n ops)⟩

/-- Concrete run of C5: keys "a" and "b" land in buckets 1 and 0 of a
2-bucket map, so the traversal visits "b" (bucket 0) before "a" (bucket 1). -/
theorem C5_traversal_witness :
    cmap_traverse (applyPuts ℕ 2 [(str "a", 1), (str "b", 2)])
      = [str "b", str "a"] :=
  ((C5_traversal ℕ 2 (by decide) [(str "a", 1), (str "b", 2)]).1).trans (by decide)

/-- C5 counterexample to the claim as stated: with a single bucket, "a" is
put first and "b" second, yet the traversal visits "b" first — reverse
insertion order, not insertion order. -/
theorem C5_insertion_order_counterexample :
    cmap_traverse (applyPuts ℕ 1 [(str "a", 1), (str "b", 2)]) = [str "b", str "a"] ∧
    [str "b", str "a"] ≠ [str "a", str "b"] :=
  ⟨by decide, by decide⟩

/-! ## C6: `vector_search` — binary search vs linear scan

`vector_search` (vector.c lines 150-182, identically cvec_search in
cvector.c) runs `bsearch` over the elements from `start_index` when
`is_sorted`, else the linear scan (`my_lfind` of vector_internal.h, the
first-match scan `lfind` also implements), and converts the returned slot to
an index, `-1` for NotFound. -/

/-- The halving loop of C `bsearch` (glibc and musl probe `(l+u)/2` and keep
`[l, u)`).  The loop variable is not structural, so `fuel` bounds the
iteration count; the width shrinks every step, so any fuel above the initial
width is enough.  The key has the element type, as in `vector_search`. -/
def bsearchAux {V : Type} (cmp : V → V → ℤ) (key : V) (arr : List V) :
    ℕ → ℕ → ℕ → Option ℕ
  | 0, _, _ => none
  | fuel + 1, l, u =>
      if l < u then
        let m := (l + u) / 2
        let c := cmp key (arr.getD m key)
        if c < 0 then bsearchAux cmp key arr fuel l m
        else if 0 < c then bsearchAux cmp key arr fuel (m + 1) u
        else some m
      else none

/-- C `bsearch` over a whole array. -/
def bsearch {V : Type} (cmp : V → V → ℤ) (key : V) (arr : List V) : Option ℕ :=
  bsearchAux cmp key arr (arr.length + 1) 0 arr.length

/-- Embedding of `my_lfind` (vector_internal.h lines 126-135; C `lfind` has
the same contract): index of the first element comparing equal to the key. -/
def my_lfind {V : Type} (cmp : V → V → ℤ) (key : V) : List V → Option ℕ
  | [] => none
  | x :: t => if cmp key x = 0 then some 0 else (my_lfind cmp key t).map (· + 1)

/-- Embedding of `vector_search`: scan the elements from `start_index` on,
by binary search when `is_sorted` else linearly, and translate the found slot
back to an absolute index (`-1` = NotFound). -/
def vector_search {V : Type} (arr : List V) (key : V) (cmp : V → V → ℤ)
    (start_index : ℕ) (is_sorted : Bool) : ℤ :=
  let sub := arr.drop start_index
  let r := if is_sorted then bsearch cmp key sub else my_lfind cmp key sub
  match r with
  | none => -1
  | some j => (start_index : ℤ) + j

/-- What the claim's "total three-way compare function" gives on the values
actually compared: the sign of `cmp` flips under argument swap, and the
nonpositive-sign relation is transitive. -/
def cmpOkOn {V : Type} (cmp : V → V → ℤ) (xs : List V) : Prop :=
  (∀ x ∈ xs, ∀ y ∈ xs, (0 ≤ cmp x y ↔ cmp y x ≤ 0)) ∧
  (∀ x ∈ xs, ∀ y ∈ xs, ∀ z ∈ xs, cmp x y ≤ 0 → cmp y z ≤ 0 → cmp x z ≤ 0)

instance {V : Type} (cmp : V → V → ℤ) (xs : List V) : Decidable (cmpOkOn cmp xs) := by
  unfold cmpOkOn
  infer_instance

theorem cmpOkOn_mix1 {V : Type} {cmp : V → V → ℤ} {xs : List V} (h : cmpOkOn cmp xs)
    {x y z : V} (hx : x ∈ xs) (hy : y ∈ xs) (hz : z ∈ xs)
    (h1 : cmp x y < 0) (h2 : cmp y z ≤ 0) : cmp x z < 0 := by
  by_contra hc
  push_neg at hc
  have h3 : cmp z x ≤ 0 := (h.1 x hx z hz).mp hc
  have h4 : cmp y x ≤ 0 := h.2 y hy z hz x hx h2 h3
  have h5 : 0 ≤ cmp x y := (h.1 x hx y hy).mpr h4
  omega

theorem cmpOkOn_mix2 {V : Type} {cmp : V → V → ℤ} {xs : List V} (h : cmpOkOn cmp xs)
    {x y z : V} (hx : x ∈ xs) (hy : y ∈ xs) (hz : z ∈ xs)
    (h1 : cmp x y ≤ 0) (h2 : 0 < cmp x z) : 0 < cmp y z := by
  by_contra hc
  push_neg at hc
  have h3 : cmp x z ≤ 0 := h.2 x hx y hy z hz h1 hc
  omega

/-- Soundness of the `bsearch` loop on a sorted range: a `some` result is an
in-range slot comparing equal, a `none` result means no slot in `[l, u)`
compares equal. -/
theorem bsearchAux_spec {V : Type} (cmp : V → V → ℤ) (key : V) (S : List V)
    (hok : cmpOkOn cmp (key :: S))
    (hsg : ∀ p q, p < q → q < S.length → cmp (S.getD p key) (S.getD q key) ≤ 0) :
    ∀ fuel l u, u ≤ S.length → u - l < fuel →
      (match bsearchAux cmp key S fuel l u with
       | none => ∀ p, l ≤ p → p < u → cmp key (S.getD p key) ≠ 0
       | some m => l ≤ m ∧ m < u ∧ cmp key (S.getD m key) = 0) := by
  have hmemS : ∀ p, p < S.length → S.getD p key ∈ key :: S := by
    intro p hp
    rw [List.getD_eq_getElem S key hp]
    exact List.mem_cons_of_mem key (List.getElem_mem hp)
  have hkey : key ∈ key :: S := List.mem_cons_self key S
  intro fuel
  induction fuel with
  | zero =>
      intro l u hu hfuel
      omega
  | succ fuel ih =>
      intro l u hu hfuel
      by_cases hlu : l < u
      · have hm : l ≤ (l + u) / 2 ∧ (l + u) / 2 < u := by omega
        simp only [bsearchAux, if_pos hlu]
        generalize hmdef : (l + u) / 2 = m
        rw [hmdef] at hm
        have hmlen : m < S.length := lt_of_lt_of_le hm.2 hu
        by_cases hc1 : cmp key (S.getD m key) < 0
        · rw [if_pos hc1]
          have hrec := ih l m (le_of_lt (lt_of_lt_of_le hm.2 hu)) (by omega)
          cases hb : bsearchAux cmp key S fuel l m with
          | none =>
              rw [hb] at hrec
              intro p hpl hpu
              by_cases hpm : p < m
              · exact hrec p hpl hpm
              · have hple : m ≤ p := Nat.le_of_not_lt hpm
                have hplen : p < S.length := lt_of_lt_of_le hpu hu
                by_cases hpe : m = p
                · rw [← hpe]
                  omega
                · have hmp : m < p := lt_of_le_of_ne hple hpe
                  have hle : cmp (S.getD m key) (S.getD p key) ≤ 0 :=
                    hsg m p hmp hplen
                  have := cmpOkOn_mix1 hok hkey (hmemS m hmlen) (hmemS p hplen) hc1 hle
                  omega
          | some m' =>
              rw [hb] at hrec
              exact ⟨hrec.1, lt_of_lt_of_le hrec.2.1 (le_of_lt hm.2), hrec.2.2⟩
        · rw [if_neg hc1]
          by_cases hc2 : 0 < cmp key (S.getD m key)
          · rw [if_pos hc2]
            have hrec := ih (m + 1) u hu (by omega)
            cases hb : bsearchAux cmp key S fuel (m + 1) u with
            | none =>
                rw [hb] at hrec
                intro p hpl hpu
                by_cases hpm : m + 1 ≤ p
                · exact hrec p hpm hpu
                · have hple : p ≤ m := by omega
                  have hplen : p < S.length := lt_of_lt_of_le hpu hu
                  by_cases hpe : p = m
                  · rw [hpe]
                    omega
                  · have hpm' : p < m := lt_of_le_of_ne hple hpe
                    have hle : cmp (S.getD p key) (S.getD m key) ≤ 0 :=
                      hsg p m hpm' hmlen
                    have h1 : cmp key (S.getD p key) ≤ 0 → False := by
                      intro hh
                      have := hok.2 key hkey (S.getD p key) (hmemS p hplen)
                        (S.getD m key) (hmemS m hmlen) hh hle
                      omega
                    exact fun hc0 => h1 (le_of_eq hc0)
              | some m' =>
                  rw [hb] at hrec
                  exact ⟨by omega, hrec.2.1, hrec.2.2⟩
          · rw [if_neg hc2]
            refine ⟨hm.1, hm.2, by omega⟩
      · simp only [bsearchAux, if_neg hlu]
        intro p hpl hpu
        omega

/-- The linear scan returns the first equal slot, `none` when no slot is
equal. -/
theorem my_lfind_spec {V : Type} (cmp : V → V → ℤ) (key : V) :
    ∀ S : List V,
      (match my_lfind cmp key S with
       | none => ∀ p, p < S.length → cmp key (S.getD p key) ≠ 0
       | some j => j < S.length ∧ cmp key (S.getD j key) = 0 ∧
           ∀ p, p < j → cmp key (S.getD p key) ≠ 0) := by
  intro S
  induction S with
  | nil =>
      intro p hp
      simp at hp
  | cons x t ih =>
      by_cases hx : cmp key x = 0
      · simp only [my_lfind, if_pos hx]
        refine ⟨by simp, by simpa [List.getD] using hx, ?_⟩
        intro p hp
        omega
      · simp only [my_lfind, if_neg hx]
        cases hb : my_lfind cmp key t with
        | none =>
            rw [hb] at ih
            simp only [Option.map_none']
            intro p hp
            cases p with
            | zero => simpa [List.getD] using hx
            | succ q =>
                have : q < t.length := by simpa using hp
                simpa [List.getD] using ih q this
        | some j =>
            rw [hb] at ih
            simp only [Option.map_some']
            refine ⟨by simpa using Nat.succ_lt_succ ih.1,
              by simpa [List.getD] using ih.2.1, ?_⟩
            intro p hp
            cases p with
            | zero => simpa [List.getD] using hx
            | succ q =>
                have : q < j := by omega
                simpa [List.getD] using ih.2.2 q this

theorem cmp_eq_zero_trans {V : Type} {cmp : V → V → ℤ} {xs : List V}
    (hok : cmpOkOn cmp xs) {key a b : V} (hkey : key ∈ xs) (ha : a ∈ xs) (hb : b ∈ xs)
    (h1 : cmp key a = 0) (h2 : cmp key b = 0) : cmp a b = 0 := by
  have hak : cmp a key ≤ 0 := (hok.1 key hkey a ha).mp (by omega)
  have hbk : cmp b key ≤ 0 := (hok.1 key hkey b hb).mp (by omega)
  have hab : cmp a b ≤ 0 := hok.2 a ha key hkey b hb hak (by omega)
  have hba : cmp b a ≤ 0 := hok.2 b hb key hkey a ha hbk (by omega)
  have := (hok.1 a ha b hb).mpr hba
  omega

/-- C6 as amended: on a range sorted by a total three-way compare, binary
search (`is_sorted=true`) and the linear scan (`is_sorted=false`) from the
same start index agree on presence: both return `-1` exactly when no element
compares equal to the key, and any non-`-1` result of either is the absolute
index of an element comparing equal to the key.  When the sorted range
contains no compare-equal duplicates the two returned indices are moreover
identical; with duplicates they may differ (the linear scan returns the
first match, the halving search whichever match it probes). -/
theorem C6_search_agreement {V : Type} (arr : List V) (key : V) (cmp : V → V → ℤ)
    (start_index : ℕ)
    (hok : cmpOkOn cmp (key :: arr.drop start_index))
    (hsort : (arr.drop start_index).Pairwise (fun a b => cmp a b ≤ 0)) :
    (vector_search arr key cmp start_index true = -1
       ↔ ∀ x ∈ arr.drop start_index, cmp key x ≠ 0) ∧
    (vector_search arr key cmp start_index false = -1
       ↔ ∀ x ∈ arr.drop start_index, cmp key x ≠ 0) ∧
    (vector_search arr key cmp start_index true ≠ -1 →
       ∃ j : ℕ, vector_search arr key cmp start_index true = start_index + j ∧
         j < (arr.drop start_index).length ∧
         cmp key ((arr.drop start_index).getD j key) = 0) ∧
    (vector_search arr key cmp start_index false ≠ -1 →
       ∃ j : ℕ, vector_search arr key cmp start_index false = start_index + j ∧
         j < (arr.drop start_index).length ∧
         cmp key ((arr.drop start_index).getD j key) = 0) ∧
    ((arr.drop start_index).Pairwise (fun a b => cmp a b ≠ 0) →
       vector_search arr key cmp start_index true
         = vector_search arr key cmp start_index false) := by
  set S := arr.drop start_index with hS
  have hsg : ∀ p q, p < q → q < S.length →
      cmp (S.getD p key) (S.getD q key) ≤ 0 := by
    intro p q hpq hq
    have hp : p < S.length := lt_trans hpq hq
    have := List.pairwise_iff_get.mp hsort ⟨p, hp⟩ ⟨q, hq⟩ hpq
    rw [List.getD_eq_getElem S key hp, List.getD_eq_getElem S key hq]
    simpa [List.get_eq_getElem] using this
  have hmemS : ∀ p, p < S.length → S.getD p key ∈ S := by
    intro p hp
    rw [List.getD_eq_getElem S key hp]
    exact List.getElem_mem hp
  have hb := bsearchAux_spec cmp key S hok hsg (S.length + 1) 0 S.length
    (le_refl _) (by omega)
  have hl := my_lfind_spec cmp key S
  have hidx : (∀ x ∈ S, cmp key x ≠ 0)
      ↔ (∀ p, p < S.length → cmp key (S.getD p key) ≠ 0) := by
    constructor
    · intro h p hp
      exact h _ (hmemS p hp)
    · intro h x hx
      obtain ⟨⟨p, hp⟩, rfl⟩ := List.mem_iff_get.mp hx
      have := h p hp
      rw [List.getD_eq_getElem S key hp] at this
      simpa [List.get_eq_getElem] using this
  have hvt : vector_search arr key cmp start_index true
      = match bsearch cmp key S with
        | none => -1
        | some j => (start_index : ℤ) + j := rfl
  have hvf : vector_search arr key cmp start_index false
      = match my_lfind cmp key S with
        | none => -1
        | some j => (start_index : ℤ) + j := rfl
  unfold bsearch at hvt
  cases hrS : bsearchAux cmp key S (S.length + 1) 0 S.length with
  | none =>
      rw [hrS] at hb hvt
      cases hrL : my_lfind cmp key S with
      | none =>
          rw [hrL] at hl hvf
          have hnone : ∀ x ∈ S, cmp key x ≠ 0 := by
            rw [hidx]
            intro p hp
            exact hl p hp
          refine ⟨?_, ?_, ?_, ?_, ?_⟩
          · rw [hvt]
            exact ⟨fun _ => hnone, fun _ => rfl⟩
          · rw [hvf]
            exact ⟨fun _ => hnone, fun _ => rfl⟩
          · rw [hvt]
            intro hcon
            exact absurd rfl hcon
          · rw [hvf]
            intro hcon
            exact absurd rfl hcon
          · intro _
            rw [hvt, hvf]
      | some j =>
          rw [hrL] at hl
          exact absurd hl.2.1 (hb j (Nat.zero_le j) hl.1)
  | some m =>
      rw [hrS] at hb hvt
      cases hrL : my_lfind cmp key S with
      | none =>
          rw [hrL] at hl
          exact absurd hb.2.2 (hl m hb.2.1)
      | some j =>
          rw [hrL] at hl hvf
          have hmS : m < S.length := hb.2.1
          have hjS : j < S.length := hl.1
          have hnm : ¬((start_index : ℤ) + m = -1) := by omega
          have hnj : ¬((start_index : ℤ) + j = -1) := by omega
          refine ⟨?_, ?_, ?_, ?_, ?_⟩
          · rw [hvt]
            constructor
            · intro h
              exact absurd h hnm
            · intro h
              exact absurd hb.2.2 (h _ (hmemS m hmS))
          · rw [hvf]
            constructor
            · intro h
              exact absurd h hnj
            · intro h
              exact absurd hl.2.1 (h _ (hmemS j hjS))
          · rw [hvt]
            intro _
            exact ⟨m, rfl, hmS, hb.2.2⟩
          · rw [hvf]
            intro _
            exact ⟨j, rfl, hjS, hl.2.1⟩
          · intro hdist
            rw [hvt, hvf]
            have hmj : m = j := by
              by_contra hne
              have heqz : ∀ p q, p < q → q < S.length →
                  cmp key (S.getD p key) = 0 → cmp key (S.getD q key) = 0 → False := by
                intro p q hpq hq h1 h2
                have hp : p < S.length := lt_trans hpq hq
                have hz := cmp_eq_zero_trans hok (List.mem_cons_self key S)
                  (List.mem_cons_of_mem key (hmemS p hp))
                  (List.mem_cons_of_mem key (hmemS q hq)) h1 h2
                have := List.pairwise_iff_get.mp hdist ⟨p, hp⟩ ⟨q, hq⟩ hpq
                rw [List.get_eq_getElem, List.get_eq_getElem,
                  ← List.getD_eq_getElem S key hp, ← List.getD_eq_getElem S key hq]
                  at this
                exact this hz
              rcases Nat.lt_or_ge m j with hlt | hge
              · exact heqz m j hlt hjS hb.2.2 hl.2.1
              · have hlt : j < m := lt_of_le_of_ne hge (fun h => hne h.symm)
                exact heqz j m hlt hmS hl.2.1 hb.2.2
            rw [hmj]

/-- C6 counterexample to the claim as stated: on the sorted container `[5,5]`
with the usual integer compare, binary search returns index 1 for key 5 while
the linear scan returns index 0 — equal elements, different indices. -/
theorem C6_duplicate_counterexample :
    List.Pairwise (fun a b : ℤ => a - b ≤ 0) [(5 : ℤ), 5] ∧
    vector_search [(5 : ℤ), 5] 5 (fun a b => a - b) 0 true = 1 ∧
    vector_search [(5 : ℤ), 5] 5 (fun a b => a - b) 0 false = 0 ∧
    (1 : ℤ) ≠ 0 := by
  exact ⟨by decide, by decide, by decide, by decide⟩

/-- Concrete run of C6: on the duplicate-free sorted container `[1,3,5]` both
search modes return index 1 for key 3. -/
theorem C6_search_agreement_witness :
    vector_search [(1 : ℤ), 3, 5] 3 (fun a b => a - b) 0 true
      = vector_search [(1 : ℤ), 3, 5] 3 (fun a b => a - b) 0 false ∧
    vector_search [(1 : ℤ), 3, 5] 3 (fun a b => a - b) 0 false = 1 := by
  have h := C6_search_agreement [(1 : ℤ), 3, 5] 3 (fun a b => a - b) 0
    (by decide) (by decide)
  exact ⟨h.2.2.2.2 (by decide), by decide⟩

/-! ## C8: the spellchecker's bounded edit distance

`edit_dist` (part_005 lines 151-177; `edist` of part_004 lines 114-140 is
the same function with `MAX_RESULTS` 5 instead of 3) computes Levenshtein
distance with substitution cost 1, except that when the budget
`max_edit_dist_allowed` has reached exactly 0 and the strings differ it
returns the sentinel `MAX_STRING_LENGTH + 1` at once.  The budget is a C
`int`: recursive calls pass `budget - 1` and may drive it negative, where
the `== 0` early exit no longer fires.  The C `min3` macro computes the
true minimum of its three arguments. -/

/-- `MAX_STRING_LENGTH` of spellcheck.c. -/
def MAX_STRING_LENGTH : ℕ := 30

/-- Embedding of `edit_dist`, recursion exactly as in the source. -/
def edit_dist (s1 s2 : CStr) (max_edit_dist_allowed : ℤ) : ℕ :=
  if max_edit_dist_allowed = 0 ∧ s1 ≠ s2 then
    MAX_STRING_LENGTH + 1
  else
    match s1, s2 with
    | [], _ => s2.length
    | _, [] => s1.length
    | c1 :: t1, c2 :: t2 =>
        let insertion_s1 := edit_dist t1 (c2 :: t2) (max_edit_dist_allowed - 1) + 1
        let insertion_s2 := edit_dist (c1 :: t1) t2 (max_edit_dist_allowed - 1) + 1
        if c1 = c2 then
          min (min insertion_s1 insertion_s2) (edit_dist t1 t2 max_edit_dist_allowed)
        else
          min (min insertion_s1 insertion_s2)
            (edit_dist t1 t2 (max_edit_dist_allowed - 1) + 1)
termination_by s1.length + s2.length
decreasing_by all_goals simp_wf <;> omega

/-- Fuel-indexed copy of `edit_dist`, structural in the fuel so that concrete
runs reduce in the kernel.  Every recursive call of the source shrinks
`|s1| + |s2|`, so with fuel at least that sum the fuel never runs out (the
`0`-fuel fallback arm for two non-empty strings is unreachable then). -/
def edit_dist_fuel : ℕ → CStr → CStr → ℤ → ℕ
  | 0, s1, s2, m =>
      if m = 0 ∧ s1 ≠ s2 then MAX_STRING_LENGTH + 1
      else
        match s1, s2 with
        | [], _ => s2.length
        | _, [] => s1.length
        | _ :: _, _ :: _ => 0
  | fuel + 1, s1, s2, m =>
      if m = 0 ∧ s1 ≠ s2 then MAX_STRING_LENGTH + 1
      else
        match s1, s2 with
        | [], _ => s2.length
        | _, [] => s1.length
        | c1 :: t1, c2 :: t2 =>
            let insertion_s1 := edit_dist_fuel fuel t1 (c2 :: t2) (m - 1) + 1
            let insertion_s2 := edit_dist_fuel fuel (c1 :: t1) t2 (m - 1) + 1
            if c1 = c2 then
              min (min insertion_s1 insertion_s2) (edit_dist_fuel fuel t1 t2 m)
            else
              min (min insertion_s1 insertion_s2)
                (edit_dist_fuel fuel t1 t2 (m - 1) + 1)

theorem edit_dist_fuel_eq :
    ∀ (fuel : ℕ) (s1 s2 : CStr) (m : ℤ), s1.length + s2.length ≤ fuel →
      edit_dist_fuel fuel s1 s2 m = edit_dist s1 s2 m := by
  intro fuel
  induction fuel with
  | zero =>
      intro s1 s2 m hlen
      have h1 : s1 = [] := by
        cases s1 with
        | nil => rfl
        | cons a t => simp at hlen
      have h2 : s2 = [] := by
        cases s2 with
        | nil => rfl
        | cons a t =>
            rw [h1] at hlen
            simp at hlen
      subst h1
      subst h2
      rw [edit_dist.eq_def]
      rfl
  | succ fuel ih =>
      intro s1 s2 m hlen
      rw [edit_dist.eq_def, edit_dist_fuel.eq_def]
      dsimp only
      by_cases h0 : m = 0 ∧ s1 ≠ s2
      · rw [if_pos h0, if_pos h0]
      · rw [if_neg h0, if_neg h0]
        cases s1 with
        | nil =>
            cases s2 with
            | nil => rfl
            | cons c2 t2 => rfl
        | cons c1 t1 =>
            cases s2 with
            | nil => rfl
            | cons c2 t2 =>
                simp only [List.length_cons] at hlen
                dsimp only
                rw [ih t1 (c2 :: t2) (m - 1) (by simp; omega),
                  ih (c1 :: t1) t2 (m - 1) (by simp; omega),
                  ih t1 t2 m (by omega),
                  ih t1 t2 (m - 1) (by omega)]

/-- C8: with budget 0 and unequal strings `edit_dist` returns the sentinel
`MAX_STRING_LENGTH + 1 = 31 > 30`, above every valid distance of the
30-character word domain; with the ample budget 30 it computes the exact
Levenshtein distances of the spec's scenarios: 0 for cat/cat, 1 for
cat/cats, 3 for kitten/sitting. -/
theorem C8_edit_dist :
    (∀ s1 s2 : CStr, s1 ≠ s2 →
      edit_dist s1 s2 0 = MAX_STRING_LENGTH + 1 ∧ 30 < MAX_STRING_LENGTH + 1) ∧
    edit_dist (str "cat") (str "cat") 30 = 0 ∧
    edit_dist (str "cat") (str "cats") 30 = 1 ∧
    edit_dist (str "kitten") (str "sitting") 30 = 3 := by
  refine ⟨?_, ?_, ?_, ?_⟩
  · intro s1 s2 hne
    rw [edit_dist.eq_def, if_pos ⟨rfl, hne⟩]
    exact ⟨rfl, by decide⟩
  · rw [← edit_dist_fuel_eq 6 (str "cat") (str "cat") 30 (by decide)]
    decide
  · rw [← edit_dist_fuel_eq 7 (str "cat") (str "cats") 30 (by decide)]
    decide
  · rw [← edit_dist_fuel_eq 13 (str "kitten") (str "sitting") 30 (by decide)]
    decide

/-- Concrete run of C8's sentinel clause on the unequal pair cat/dog. -/
theorem C8_edit_dist_witness :
    edit_dist (str "cat") (str "dog") 0 = MAX_STRING_LENGTH + 1 :=
  (C8_edit_dist.1 (str "cat") (str "dog") (by decide)).1

/-! ## C9: the spellcheck leaderboard

`cmp_correction` (part_005 lines 184-198) and `update_leader_board`
(part_005 lines 219-250).  A `Correction` carries the edit distance, the
corpus frequency and the suggested word; the leader board is a cvector of
corrections kept sorted by `qsort` with `cmp_correction` after every
mutation.  `MAX_RESULTS` is 3 in this variant. -/

/-- C `strcmp` on byte lists: the difference of the first differing byte
pair, where a string that ends contributes its NUL terminator. -/
def strcmp : CStr → CStr → ℤ
  | [], [] => 0
  | [], b :: _ => -(b : ℤ)
  | a :: _, [] => (a : ℤ)
  | a :: as, b :: bs => if a = b then strcmp as bs else (a : ℤ) - (b : ℤ)

/-- A leaderboard entry (part_005 lines 55-59). -/
structure Correction where
  dist : ℤ
  freq : ℤ
  s : CStr
deriving DecidableEq

/-- Embedding of `cmp_correction`: negative iff the first argument is the
better correction — ascending distance, then descending frequency, then
ascending `strcmp` order of the word. -/
def cmp_correction (c1 c2 : Correction) : ℤ :=
  if c1.dist ≠ c2.dist then c1.dist - c2.dist
  else if c1.freq ≠ c2.freq then c2.freq - c1.freq
  else strcmp c1.s c2.s

/-- `MAX_RESULTS` of part_005. -/
def MAX_RESULTS : ℕ := 3

/-- Insertion step of the sorting model. -/
def orderedInsertCmp {α : Type} (cmp : α → α → ℤ) (a : α) : List α → List α
  | [] => [a]
  | b :: t => if cmp a b ≤ 0 then a :: b :: t else b :: orderedInsertCmp cmp a t

/-- Model of C `qsort`: a sorted permutation of the input.  The leader board
never holds two distinct `cmp_correction`-equal entries (the final `strcmp`
tiebreak makes equal keys equal words), so the sorted permutation is unique
and insertion sort is an exact model. -/
def sortCmp {α : Type} (cmp : α → α → ℤ) : List α → List α
  | [] => []
  | a :: t => orderedInsertCmp cmp a (sortCmp cmp t)

/-- Embedding of `update_leader_board`: on a full board compare the candidate
against the last (worst) entry, replace it and re-sort only when the
candidate compares strictly better, and return the last entry's distance as
the new budget; on a board that is not yet full, append, re-sort and return
the maximal budget `MAX_STRING_LENGTH`. -/
def update_leader_board (leader_board : List Correction) (c : Correction) :
    List Correction × ℤ :=
  if leader_board.length = MAX_RESULTS then
    let p := leader_board.getD (MAX_RESULTS - 1) c
    if cmp_correction c p < 0 then
      let lb' := sortCmp cmp_correction (leader_board.set (MAX_RESULTS - 1) c)
      (lb', (lb'.getD (MAX_RESULTS - 1) c).dist)
    else
      (leader_board, (leader_board.getD (MAX_RESULTS - 1) c).dist)
  else
    (sortCmp cmp_correction (leader_board ++ [c]), (MAX_STRING_LENGTH : ℤ))

theorem strcmp_self (s : CStr) : strcmp s s = 0 := by
  induction s with
  | nil => rfl
  | cons a t ih => simp [strcmp, ih]

theorem strcmp_antisym (a b : CStr) : strcmp a b = -strcmp b a := by
  induction a generalizing b with
  | nil =>
      cases b with
      | nil => rfl
      | cons b0 bs => simp [strcmp]
  | cons a0 as ih =>
      cases b with
      | nil => simp [strcmp]
      | cons b0 bs =>
          by_cases h : a0 = b0
          · simp [strcmp, h, ih bs]
          · simp only [strcmp, if_neg h, if_neg (fun hh : b0 = a0 => h hh.symm)]
            omega

theorem strcmp_trans (a b c : CStr) (ha : ∀ ch ∈ a, 0 < ch)
    (h1 : strcmp a b ≤ 0) (h2 : strcmp b c ≤ 0) : strcmp a c ≤ 0 := by
  induction a generalizing b c with
  | nil =>
      cases c with
      | nil => simp [strcmp]
      | cons c0 cs => simp [strcmp]
  | cons a0 as ih =>
      have ha0 : 0 < a0 := ha a0 (List.mem_cons_self a0 as)
      cases b with
      | nil =>
          simp only [strcmp] at h1
          omega
      | cons b0 bs =>
          cases c with
          | nil =>
              simp only [strcmp] at h2
              by_cases hab : a0 = b0
              · rw [strcmp, if_pos hab] at h1
                simp only [strcmp]
                omega
              · rw [strcmp, if_neg hab] at h1
                simp only [strcmp]
                omega
          | cons c0 cs =>
              by_cases hab : a0 = b0
              · by_cases hbc : b0 = c0
                · rw [strcmp, if_pos hab] at h1
                  rw [strcmp, if_pos hbc] at h2
                  rw [strcmp, if_pos (hab.trans hbc)]
                  exact ih bs cs (fun ch hch => ha ch (List.mem_cons_of_mem a0 hch)) h1 h2
                · rw [strcmp, if_neg hbc] at h2
                  have : ¬a0 = c0 := fun h => hbc (hab.symm.trans h)
                  rw [strcmp, if_neg this]
                  omega
              · rw [strcmp, if_neg hab] at h1
                by_cases hbc : b0 = c0
                · have : ¬a0 = c0 := fun h => hab (h.trans hbc.symm)
                  rw [strcmp, if_neg this]
                  omega
                · rw [strcmp, if_neg hbc] at h2
                  have : ¬a0 = c0 := by omega
                  rw [strcmp, if_neg this]
                  omega

theorem cmp_correction_le_iff (c1 c2 : Correction) :
    cmp_correction c1 c2 ≤ 0 ↔
      (c1.dist < c2.dist ∨
       (c1.dist = c2.dist ∧
        (c2.freq < c1.freq ∨ (c1.freq = c2.freq ∧ strcmp c1.s c2.s ≤ 0)))) := by
  unfold cmp_correction
  by_cases h1 : c1.dist = c2.dist
  · rw [if_neg (show ¬c1.dist ≠ c2.dist from fun hh => hh h1)]
    by_cases h2 : c1.freq = c2.freq
    · rw [if_neg (show ¬c1.freq ≠ c2.freq from fun hh => hh h2)]
      constructor
      · intro h
        exact Or.inr ⟨h1, Or.inr ⟨h2, h⟩⟩
      · rintro (h | ⟨-, h | ⟨-, h⟩⟩)
        · exact absurd h1 (by omega)
        · exact absurd h2 (by omega)
        · exact h
    · rw [if_pos (show c1.freq ≠ c2.freq from h2)]
      constructor
      · intro h
        exact Or.inr ⟨h1, Or.inl (by omega)⟩
      · rintro (h | ⟨-, h | ⟨hf, -⟩⟩)
        · exact absurd h1 (by omega)
        · omega
        · exact absurd hf h2
  · rw [if_pos (show c1.dist ≠ c2.dist from h1)]
    constructor
    · intro h
      exact Or.inl (by omega)
    · rintro (h | ⟨hd, -⟩)
      · omega
      · exact absurd hd h1

theorem cmp_correction_lt_iff (c1 c2 : Correction) :
    cmp_correction c1 c2 < 0 ↔
      (c1.dist < c2.dist ∨
       (c1.dist = c2.dist ∧ c2.freq < c1.freq) ∨
       (c1.dist = c2.dist ∧ c1.freq = c2.freq ∧ strcmp c1.s c2.s < 0)) := by
  unfold cmp_correction
  by_cases h1 : c1.dist = c2.dist
  · rw [if_neg (show ¬c1.dist ≠ c2.dist from fun hh => hh h1)]
    by_cases h2 : c1.freq = c2.freq
    · rw [if_neg (show ¬c1.freq ≠ c2.freq from fun hh => hh h2)]
      constructor
      · intro h
        exact Or.inr (Or.inr ⟨h1, h2, h⟩)
      · rintro (h | ⟨-, h⟩ | ⟨-, -, h⟩)
        · exact absurd h1 (by omega)
        · exact absurd h2 (by omega)
        · exact h
    · rw [if_pos (show c1.freq ≠ c2.freq from h2)]
      constructor
      · intro h
        exact Or.inr (Or.inl ⟨h1, by omega⟩)
      · rintro (h | ⟨-, h⟩ | ⟨-, hf, -⟩)
        · exact absurd h1 (by omega)
        · omega
        · exact absurd hf h2
  · rw [if_pos (show c1.dist ≠ c2.dist from h1)]
    constructor
    · intro h
      exact Or.inl (by omega)
    · rintro (h | ⟨hd, -⟩ | ⟨hd, -⟩)
      · omega
      · exact absurd hd h1
      · exact absurd hd h1

theorem cmp_correction_okOn (xs : List Correction)
    (hstr : ∀ x ∈ xs, ∀ ch ∈ x.s, 0 < ch) : cmpOkOn cmp_correction xs := by
  constructor
  · intro x _ y _
    unfold cmp_correction
    by_cases h1 : x.dist = y.dist
    · by_cases h2 : x.freq = y.freq
      · simp only [h1, h2, ne_eq, not_true_eq_false, if_false]
        rw [strcmp_antisym x.s y.s]
        omega
      · simp only [h1, ne_eq, not_true_eq_false, if_false, if_neg h2,
          if_neg (fun hh : y.freq = x.freq => h2 hh.symm)]
        omega
    · simp only [ne_eq, if_neg (fun hh : x.dist = y.dist => absurd hh h1),
        if_pos h1, if_neg (fun hh : y.dist = x.dist => h1 hh.symm)]
      omega
  · intro x hx y _ z _ h1 h2
    rw [cmp_correction_le_iff] at h1 h2 ⊢
    rcases h1 with h1 | ⟨hd1, h1⟩
    · rcases h2 with h2 | ⟨hd2, -⟩
      · exact Or.inl (by omega)
      · exact Or.inl (by omega)
    · rcases h2 with h2 | ⟨hd2, h2⟩
      · exact Or.inl (by omega)
      · refine Or.inr ⟨hd1.trans hd2, ?_⟩
        rcases h1 with h1 | ⟨hf1, h1⟩
        · rcases h2 with h2 | ⟨hf2, -⟩
          · exact Or.inl (by omega)
          · exact Or.inl (by omega)
        · rcases h2 with h2 | ⟨hf2, h2⟩
          · exact Or.inl (by omega)
          · exact Or.inr ⟨hf1.trans hf2,
              strcmp_trans x.s y.s z.s (hstr x hx) h1 h2⟩

theorem orderedInsertCmp_perm {α : Type} (cmp : α → α → ℤ) (a : α) (l : List α) :
    (orderedInsertCmp cmp a l).Perm (a :: l) := by
  induction l with
  | nil => exact List.Perm.refl _
  | cons b t ih =>
      by_cases h : cmp a b ≤ 0
      · rw [orderedInsertCmp, if_pos h]
      · rw [orderedInsertCmp, if_neg h]
        exact (List.Perm.cons b ih).trans (List.Perm.swap a b t)

theorem sortCmp_perm {α : Type} (cmp : α → α → ℤ) (l : List α) :
    (sortCmp cmp l).Perm l := by
  induction l with
  | nil => exact List.Perm.refl _
  | cons a t ih =>
      rw [sortCmp]
      exact (orderedInsertCmp_perm cmp a (sortCmp cmp t)).trans (List.Perm.cons a ih)

theorem orderedInsertCmp_mem {α : Type} (cmp : α → α → ℤ) (a : α) (l : List α)
    (x : α) (hx : x ∈ orderedInsertCmp cmp a l) : x = a ∨ x ∈ l :=
  List.mem_cons.mp ((orderedInsertCmp_perm cmp a l).subset hx)

theorem orderedInsertCmp_sorted {α : Type} {cmp : α → α → ℤ} {xs : List α}
    (hok : cmpOkOn cmp xs) (a : α) (ha : a ∈ xs) :
    ∀ l : List α, (∀ x ∈ l, x ∈ xs) →
      l.Pairwise (fun x y => cmp x y ≤ 0) →
      (orderedInsertCmp cmp a l).Pairwise (fun x y => cmp x y ≤ 0) := by
  intro l
  induction l with
  | nil =>
      intro _ _
      simp [orderedInsertCmp]
  | cons b t ih =>
      intro hmem hs
      have hbmem : b ∈ xs := hmem b (List.mem_cons_self b t)
      rw [List.pairwise_cons] at hs
      by_cases h : cmp a b ≤ 0
      · rw [orderedInsertCmp, if_pos h]
        rw [List.pairwise_cons]
        refine ⟨?_, List.pairwise_cons.mpr hs⟩
        intro x hx
        rcases List.mem_cons.mp hx with rfl | hx
        · exact h
        · exact hok.2 a ha b hbmem x (hmem x (List.mem_cons_of_mem b hx)) h
            (hs.1 x hx)
      · rw [orderedInsertCmp, if_neg h]
        rw [List.pairwise_cons]
        have hba : cmp b a ≤ 0 := (hok.1 a ha b hbmem).mp (by omega)
        refine ⟨?_, ih (fun x hx => hmem x (List.mem_cons_of_mem b hx)) hs.2⟩
        intro x hx
        rcases orderedInsertCmp_mem cmp a t x hx with rfl | hx
        · exact hba
        · exact hs.1 x hx

theorem sortCmp_sorted {α : Type} {cmp : α → α → ℤ} {xs : List α}
    (hok : cmpOkOn cmp xs) :
    ∀ l : List α, (∀ x ∈ l, x ∈ xs) →
      (sortCmp cmp l).Pairwise (fun x y => cmp x y ≤ 0) := by
  intro l
  induction l with
  | nil =>
      intro _
      simp [sortCmp]
  | cons a t ih =>
      intro hmem
      rw [sortCmp]
      refine orderedInsertCmp_sorted hok a (hmem a (List.mem_cons_self a t))
        (sortCmp cmp t) ?_ (ih fun x hx => hmem x (List.mem_cons_of_mem a hx))
      intro x hx
      exact hmem x (List.mem_cons_of_mem a ((sortCmp_perm cmp t).subset hx))

/-- The sign of `strcmp` on NUL-free byte strings is strict lexicographic
order. -/
theorem strcmp_lt_iff_lex (s1 s2 : CStr) (h1 : ∀ ch ∈ s1, 0 < ch)
    (h2 : ∀ ch ∈ s2, 0 < ch) :
    (strcmp s1 s2 < 0 ↔ List.Lex (· < ·) s1 s2) := by
  induction s1 generalizing s2 with
  | nil =>
      cases s2 with
      | nil =>
          simp only [strcmp]
          constructor
          · omega
          · intro h
            cases h
      | cons b bs =>
          simp only [strcmp]
          constructor
          · intro _
            exact List.Lex.nil
          · intro _
            have := h2 b (List.mem_cons_self b bs)
            omega
  | cons a as ih =>
      cases s2 with
      | nil =>
          simp only [strcmp]
          constructor
          · have := h1 a (List.mem_cons_self a as)
            omega
          · intro h
            cases h
      | cons b bs =>
          by_cases hab : a = b
          · rw [strcmp, if_pos hab]
            subst hab
            constructor
            · intro h
              exact List.Lex.cons ((ih bs (fun ch hch => h1 ch (List.mem_cons_of_mem a hch))
                (fun ch hch => h2 ch (List.mem_cons_of_mem a hch))).mp h)
            · intro h
              cases h with
              | cons h =>
                  exact (ih bs (fun ch hch => h1 ch (List.mem_cons_of_mem a hch))
                    (fun ch hch => h2 ch (List.mem_cons_of_mem a hch))).mpr h
              | rel h => omega
          · rw [strcmp, if_neg hab]
            constructor
            · intro h
              exact List.Lex.rel (by omega)
            · intro h
              cases h with
              | cons h => exact absurd rfl hab
              | rel h => omega

theorem cmp_correction_self (c : Correction) : cmp_correction c c = 0 := by
  unfold cmp_correction
  simp [strcmp_self]

theorem sorted3_max (u v w : Correction)
    (hs : [u, v, w].Pairwise (fun x y => cmp_correction x y ≤ 0)) :
    ∀ x ∈ [u, v, w], cmp_correction x w ≤ 0 := by
  simp only [List.pairwise_cons, List.mem_cons, List.not_mem_nil] at hs
  intro x hx
  rcases List.mem_cons.mp hx with rfl | hx
  · exact hs.1 w (by simp)
  · rcases List.mem_cons.mp hx with rfl | hx
    · exact hs.2.1 w (by simp)
    · rcases List.mem_cons.mp hx with rfl | hx
      · exact le_of_eq (cmp_correction_self x)
      · simp at hx

theorem update_leader_board_full (a b d c : Correction) :
    update_leader_board [a, b, d] c
      = if cmp_correction c d < 0 then
          (sortCmp cmp_correction [a, b, c],
           ((sortCmp cmp_correction [a, b, c]).getD (MAX_RESULTS - 1) c).dist)
        else ([a, b, d], d.dist) := by
  rfl

/-- C9: the leaderboard ordering and replacement policy.  `cmp_correction`
ranks by ascending edit distance, then descending corpus frequency, then
ascending lexicographic word order (on NUL-free C strings); the entry a full
board compares against is its worst entry; a candidate replaces it exactly
when strictly better under this ordering (otherwise the board is unchanged),
the board stays sorted, and the returned budget is the distance of the new
worst entry. -/
theorem C9_leader_board (lb : List Correction) (c : Correction)
    (hfull : lb.length = MAX_RESULTS)
    (hsort : lb.Pairwise (fun x y => cmp_correction x y ≤ 0))
    (hstr : ∀ x ∈ c :: lb, ∀ ch ∈ x.s, 0 < ch) :
    (∀ c1 c2 : Correction, (∀ ch ∈ c1.s, 0 < ch) → (∀ ch ∈ c2.s, 0 < ch) →
       (cmp_correction c1 c2 < 0 ↔
        (c1.dist < c2.dist ∨
         (c1.dist = c2.dist ∧ c2.freq < c1.freq) ∨
         (c1.dist = c2.dist ∧ c1.freq = c2.freq ∧ List.Lex (· < ·) c1.s c2.s)))) ∧
    (∀ x ∈ lb, cmp_correction x (lb.getD (MAX_RESULTS - 1) c) ≤ 0) ∧
    (cmp_correction c (lb.getD (MAX_RESULTS - 1) c) < 0 →
       (update_leader_board lb c).1.Perm (c :: lb.take (MAX_RESULTS - 1)) ∧
       (update_leader_board lb c).1.Pairwise (fun x y => cmp_correction x y ≤ 0)) ∧
    (¬cmp_correction c (lb.getD (MAX_RESULTS - 1) c) < 0 →
       (update_leader_board lb c).1 = lb) ∧
    ((update_leader_board lb c).2
       = ((update_leader_board lb c).1.getD (MAX_RESULTS - 1) c).dist ∧
     ∀ x ∈ (update_leader_board lb c).1,
       cmp_correction x
         ((update_leader_board lb c).1.getD (MAX_RESULTS - 1) c) ≤ 0) := by
  obtain ⟨a, b, d, rfl⟩ : ∃ a b d, lb = [a, b, d] := by
    cases lb with
    | nil => simp [MAX_RESULTS] at hfull
    | cons a t =>
        cases t with
        | nil => simp [MAX_RESULTS] at hfull
        | cons b t2 =>
            cases t2 with
            | nil => simp [MAX_RESULTS] at hfull
            | cons d t3 =>
                cases t3 with
                | nil => exact ⟨a, b, d, rfl⟩
                | cons e t4 => simp [MAX_RESULTS] at hfull
  have hgd : ([a, b, d] : List Correction).getD (MAX_RESULTS - 1) c = d := rfl
  have hok : cmpOkOn cmp_correction (c :: [a, b, d]) := cmp_correction_okOn _ hstr
  refine ⟨?_, ?_, ?_, ?_, ?_⟩
  · intro c1 c2 hc1 hc2
    rw [cmp_correction_lt_iff, strcmp_lt_iff_lex c1.s c2.s hc1 hc2]
  · rw [hgd]
    exact sorted3_max a b d hsort
  · intro hbet
    rw [hgd] at hbet
    rw [update_leader_board_full, if_pos hbet]
    constructor
    · show (sortCmp cmp_correction [a, b, c]).Perm _
      refine (sortCmp_perm cmp_correction [a, b, c]).trans ?_
      show ([a, b] ++ [c]).Perm (c :: ([a, b, d] : List Correction).take 2)
      have : ([a, b, d] : List Correction).take 2 = [a, b] := rfl
      rw [this]
      exact List.perm_append_comm
    · show (sortCmp cmp_correction [a, b, c]).Pairwise _
      refine sortCmp_sorted hok [a, b, c] ?_
      intro x hx
      rcases List.mem_cons.mp hx with rfl | hx
      · simp
      · rcases List.mem_cons.mp hx with rfl | hx
        · simp
        · rcases List.mem_cons.mp hx with rfl | hx
          · simp
          · simp at hx
  · intro hbet
    rw [hgd] at hbet
    rw [update_leader_board_full, if_neg hbet]
  · by_cases hbet : cmp_correction c d < 0
    · rw [update_leader_board_full, if_pos hbet]
      have hlen3 : (sortCmp cmp_correction [a, b, c]).length = 3 :=
        (sortCmp_perm cmp_correction [a, b, c]).length_eq
      obtain ⟨u, v, w, huvw⟩ :
          ∃ u v w, sortCmp cmp_correction [a, b, c] = [u, v, w] := by
        cases hsc : sortCmp cmp_correction [a, b, c] with
        | nil => rw [hsc] at hlen3; simp at hlen3
        | cons u t =>
            cases t with
            | nil => rw [hsc] at hlen3; simp at hlen3
            | cons v t2 =>
                cases t2 with
                | nil => rw [hsc] at hlen3; simp at hlen3
                | cons w t3 =>
                    cases t3 with
                    | nil => exact ⟨u, v, w, rfl⟩
                    | cons e t4 => rw [hsc] at hlen3; simp at hlen3
      have hsorted : (sortCmp cmp_correction [a, b, c]).Pairwise
          (fun x y => cmp_correction x y ≤ 0) := by
        refine sortCmp_sorted hok [a, b, c] ?_
        intro x hx
        rcases List.mem_cons.mp hx with rfl | hx
        · simp
        · rcases List.mem_cons.mp hx with rfl | hx
          · simp
          · rcases List.mem_cons.mp hx with rfl | hx
            · simp
            · simp at hx
      rw [huvw] at hsorted ⊢
      exact ⟨rfl, sorted3_max u v w hsorted⟩
    · rw [update_leader_board_full, if_neg hbet]
      exact ⟨rfl, sorted3_max a b d hsort⟩

/-- Concrete run of C9, after the spec's own scenario: board
`[cat(d1,f3), car(d2,f1), cart(d2,f1)]`, candidate `cab(d2,f5)` is strictly
better than the worst entry `cart` (same distance, higher frequency), so it
replaces it; the re-sorted board's worst distance 2 is the new budget. -/
theorem C9_leader_board_witness :
    (update_leader_board
        [⟨1, 3, str "cat"⟩, ⟨2, 1, str "car"⟩, ⟨2, 1, str "cart"⟩]
        ⟨2, 5, str "cab"⟩).2 = 2 := by
  have h := C9_leader_board
    [⟨1, 3, str "cat"⟩, ⟨2, 1, str "car"⟩, ⟨2, 1, str "cart"⟩]
    ⟨2, 5, str "cab"⟩ (by decide) (by decide) (by decide)
  exact h.2.2.2.2.1.trans (by decide)

/-! ## C10: the hashset keeps every bucket vector sorted

`hashset_enter` (part_000 lines 92-109; `HashSetEnter` of part_001 is the
same code): binary-search the hashed bucket (`vector_search` with
`is_sorted=true`), and either append-then-`vector_sort` the new element or
`vector_elem_replace` the found slot in place.  `hashset_lookup` (lines
116-130) binary-searches the same way and returns the found element. -/

theorem cmpOkOn_subset {V : Type} {cmp : V → V → ℤ} {xs ys : List V}
    (hok : cmpOkOn cmp xs) (hsub : ∀ y ∈ ys, y ∈ xs) : cmpOkOn cmp ys :=
  ⟨fun a ha c hc => hok.1 a (hsub a ha) c (hsub c hc),
   fun a ha c hc e he => hok.2 a (hsub a ha) c (hsub c hc) e (hsub e he)⟩

theorem pairwise_le_getD {V : Type} (cmp : V → V → ℤ) (key : V) (S : List V)
    (hsort : S.Pairwise (fun a b => cmp a b ≤ 0)) :
    ∀ p q, p < q → q < S.length → cmp (S.getD p key) (S.getD q key) ≤ 0 := by
  intro p q hpq hq
  have hp : p < S.length := lt_trans hpq hq
  have := List.pairwise_iff_get.mp hsort ⟨p, hp⟩ ⟨q, hq⟩ hpq
  rw [List.getD_eq_getElem S key hp, List.getD_eq_getElem S key hq]
  simpa [List.get_eq_getElem] using this

/-- `bsearch` on a sorted bucket: `none` exactly when no element compares
equal to the key; a `some` is an in-range slot comparing equal. -/
theorem bsearch_spec {V : Type} (cmp : V → V → ℤ) (key : V) (S : List V)
    (hok : cmpOkOn cmp (key :: S))
    (hsort : S.Pairwise (fun a b => cmp a b ≤ 0)) :
    match bsearch cmp key S with
    | none => ∀ y ∈ S, cmp key y ≠ 0
    | some pos => pos < S.length ∧ cmp key (S.getD pos key) = 0 := by
  have h := bsearchAux_spec cmp key S hok (pairwise_le_getD cmp key S hsort)
    (S.length + 1) 0 S.length (le_refl _) (by omega)
  unfold bsearch
  cases hb : bsearchAux cmp key S (S.length + 1) 0 S.length with
  | none =>
      rw [hb] at h
      intro y hy
      obtain ⟨⟨p, hp⟩, rfl⟩ := List.mem_iff_get.mp hy
      have := h p (Nat.zero_le p) hp
      rw [List.getD_eq_getElem S key hp] at this
      simpa [List.get_eq_getElem] using this
  | some pos =>
      rw [hb] at h
      exact ⟨h.2.1, h.2.2⟩

/-- In-place replacement by a compare-equal element keeps a bucket sorted. -/
theorem pairwise_set_of_cmp_eq {V : Type} {cmp : V → V → ℤ} {xs : List V}
    (hok : cmpOkOn cmp xs) (b : List V) (hb : ∀ y ∈ b, y ∈ xs) (v : V)
    (hv : v ∈ xs) (pos : ℕ) (hpos : pos < b.length)
    (heq : cmp v (b.getD pos v) = 0)
    (hs : b.Pairwise (fun a c => cmp a c ≤ 0)) :
    (b.set pos v).Pairwise (fun a c => cmp a c ≤ 0) := by
  have hmemb : ∀ p, p < b.length → b.getD p v ∈ xs := by
    intro p hp
    rw [List.getD_eq_getElem b v hp]
    exact hb _ (List.getElem_mem hp)
  have hsg := pairwise_le_getD cmp v b hs
  rw [List.pairwise_iff_get]
  intro i j hij
  have hib : i.1 < b.length := by
    have := i.2
    simpa using this
  have hjb : j.1 < b.length := by
    have := j.2
    simpa using this
  have hgi : (b.set pos v).get i = (b.set pos v).getD i.1 v := by
    rw [List.get_eq_getElem, List.getD_eq_getElem (b.set pos v) v (by simpa using i.2)]
  have hgj : (b.set pos v).get j = (b.set pos v).getD j.1 v := by
    rw [List.get_eq_getElem, List.getD_eq_getElem (b.set pos v) v (by simpa using j.2)]
  rw [hgi, hgj]
  have hij' : i.1 < j.1 := hij
  by_cases hi : pos = i.1
  · rw [← hi, getD_set_self b pos hpos v v]
    have hj : pos ≠ j.1 := by omega
    rw [getD_set_ne b pos j.1 hj v v]
    exact hok.2 v hv (b.getD pos v) (hmemb pos hpos) (b.getD j.1 v) (hmemb j.1 hjb)
      (le_of_eq heq) (hsg pos j.1 (by omega) hjb)
  · rw [getD_set_ne b pos i.1 hi v v]
    by_cases hj : pos = j.1
    · rw [← hj, getD_set_self b pos hpos v v]
      have hpv : cmp (b.getD pos v) v ≤ 0 :=
        (hok.1 v hv (b.getD pos v) (hmemb pos hpos)).mp (by omega)
      exact hok.2 (b.getD i.1 v) (hmemb i.1 hib) (b.getD pos v) (hmemb pos hpos)
        v hv (hsg i.1 pos (by omega) hpos) hpv
    · rw [getD_set_ne b pos j.1 hj v v]
      exact hsg i.1 j.1 hij' hjb

/-- Embedding of `hashset_enter`: binary-search the hashed bucket; if absent,
append the element and re-sort the bucket (`vector_append` + `vector_sort`);
if found, overwrite that slot in place (`vector_elem_replace`). -/
def hashset_enter {V : Type} (buckets : List (List V)) (hash : V → ℕ)
    (cmp : V → V → ℤ) (elem : V) : List (List V) :=
  let bucket := hash elem
  let b := buckets.getD bucket []
  match bsearch cmp elem b with
  | none => buckets.set bucket (sortCmp cmp (b ++ [elem]))
  | some vec_position => buckets.set bucket (b.set vec_position elem)

/-- Embedding of `hashset_lookup`: binary-search the hashed bucket with
`is_sorted=true` and return the stored element (`NULL` = `none` on miss). -/
def hashset_lookup {V : Type} (buckets : List (List V)) (hash : V → ℕ)
    (cmp : V → V → ℤ) (elem : V) : Option V :=
  let b := buckets.getD (hash elem) []
  match bsearch cmp elem b with
  | none => none
  | some vec_position => some (b.getD vec_position elem)

/-- Run a sequence of `hashset_enter` operations on a fresh `n`-bucket set. -/
def applyEnters {V : Type} (n : ℕ) (hash : V → ℕ) (cmp : V → V → ℤ)
    (ops : List V) : List (List V) :=
  ops.foldl (fun bks v => hashset_enter bks hash cmp v) (List.replicate n [])

theorem hashset_enter_invariant {V : Type} {cmp : V → V → ℤ} {xs : List V}
    (hok : cmpOkOn cmp xs) (hash : V → ℕ) :
    ∀ (l : List V) (bks : List (List V)), (∀ v ∈ l, v ∈ xs) →
      (∀ b ∈ bks, b.Pairwise (fun a c => cmp a c ≤ 0) ∧ ∀ y ∈ b, y ∈ xs) →
      ∀ b ∈ l.foldl (fun bks v => hashset_enter bks hash cmp v) bks,
        b.Pairwise (fun a c => cmp a c ≤ 0) ∧ ∀ y ∈ b, y ∈ xs := by
  intro l
  induction l with
  | nil =>
      intro bks _ hinv
      exact hinv
  | cons v t ih =>
      intro bks hl hinv
      rw [List.foldl_cons]
      refine ih (hashset_enter bks hash cmp v)
        (fun w hw => hl w (List.mem_cons_of_mem v hw)) ?_
      have hv : v ∈ xs := hl v (List.mem_cons_self v t)
      set i := hash v with hidef
      set b0 := bks.getD i []
      have hb0 : b0.Pairwise (fun a c => cmp a c ≤ 0) ∧ ∀ y ∈ b0, y ∈ xs := by
        by_cases hilt : i < bks.length
        · refine hinv b0 ?_
          show bks.getD i [] ∈ bks
          rw [List.getD_eq_getElem bks [] hilt]
          exact List.getElem_mem hilt
        · have : b0 = [] := List.getD_eq_default bks [] (Nat.le_of_not_lt hilt)
          rw [this]
          exact ⟨List.Pairwise.nil, by simp⟩
      have hokv : cmpOkOn cmp (v :: b0) := by
        refine cmpOkOn_subset hok ?_
        intro y hy
        rcases List.mem_cons.mp hy with rfl | hy
        · exact hv
        · exact hb0.2 y hy
      have hbs := bsearch_spec cmp v b0 hokv hb0.1
      intro b hb
      unfold hashset_enter at hb
      dsimp only at hb
      rw [← hidef] at hb
      cases hfind : bsearch cmp v b0 with
      | none =>
          rw [hfind] at hb
          rcases List.mem_or_eq_of_mem_set hb with hmem | rfl
          · exact hinv b hmem
          · constructor
            · refine sortCmp_sorted hok (b0 ++ [v]) ?_
              intro y hy
              rcases List.mem_append.mp hy with hy | hy
              · exact hb0.2 y hy
              · rw [List.mem_singleton.mp hy]
                exact hv
            · intro y hy
              have := (sortCmp_perm cmp (b0 ++ [v])).subset hy
              rcases List.mem_append.mp this with hy2 | hy2
              · exact hb0.2 y hy2
              · rw [List.mem_singleton.mp hy2]
                exact hv
      | some pos =>
          rw [hfind] at hb hbs
          rcases List.mem_or_eq_of_mem_set hb with hmem | rfl
          · exact hinv b hmem
          · constructor
            · refine pairwise_set_of_cmp_eq hok b0 hb0.2 v hv pos hbs.1 ?_ hb0.1
              have := hbs.2
              rwa [List.getD_eq_getElem b0 v hbs.1] at this ⊢
            · intro y hy
              rcases List.mem_or_eq_of_mem_set hy with hy | rfl
              · exact hb0.2 y hy
              · exact hv

/-- C10: every reachable hashset state keeps each bucket's vector sorted with
respect to the client compare (new elements are appended then the bucket is
re-sorted; present elements are replaced in place, preserving sortedness),
and that invariant makes `hashset_lookup`'s binary search with
`is_sorted=true` correct: it misses exactly when the probed bucket holds no
compare-equal element, and a hit returns a compare-equal stored element. -/
theorem C10_hashset_sorted_buckets {V : Type} (n : ℕ) (hash : V → ℕ)
    (cmp : V → V → ℤ) (ops : List V) (x : V)
    (hok : cmpOkOn cmp (x :: ops)) :
    (∀ b ∈ applyEnters n hash cmp ops, b.Pairwise (fun a c => cmp a c ≤ 0)) ∧
    (hashset_lookup (applyEnters n hash cmp ops) hash cmp x = none
       ↔ ∀ y ∈ (applyEnters n hash cmp ops).getD (hash x) [], cmp x y ≠ 0) ∧
    (∀ y : V, hashset_lookup (applyEnters n hash cmp ops) hash cmp x = some y →
       y ∈ (applyEnters n hash cmp ops).getD (hash x) [] ∧ cmp x y = 0) := by
  have hops : ∀ v ∈ ops, v ∈ x :: ops := fun v hv => List.mem_cons_of_mem x hv
  have hempty : ∀ b ∈ (List.replicate n ([] : List V)),
      b.Pairwise (fun a c => cmp a c ≤ 0) ∧ ∀ y ∈ b, y ∈ x :: ops := by
    intro b hb
    rw [List.eq_of_mem_replicate hb]
    exact ⟨List.Pairwise.nil, by simp⟩
  have hinv := hashset_enter_invariant hok hash ops (List.replicate n []) hops hempty
  have hsorted : ∀ b ∈ applyEnters n hash cmp ops,
      b.Pairwise (fun a c => cmp a c ≤ 0) := fun b hb => (hinv b hb).1
  set bks := applyEnters n hash cmp ops with hbks
  set b0 := bks.getD (hash x) [] with hb0def
  have hb0 : b0.Pairwise (fun a c => cmp a c ≤ 0) ∧ ∀ y ∈ b0, y ∈ x :: ops := by
    by_cases hilt : hash x < bks.length
    · refine hinv b0 ?_
      show bks.getD (hash x) [] ∈ bks
      rw [List.getD_eq_getElem bks [] hilt]
      exact List.getElem_mem hilt
    · have : b0 = [] := List.getD_eq_default bks [] (Nat.le_of_not_lt hilt)
      rw [this]
      exact ⟨List.Pairwise.nil, by simp⟩
  have hokx : cmpOkOn cmp (x :: b0) := by
    refine cmpOkOn_subset hok ?_
    intro y hy
    rcases List.mem_cons.mp hy with rfl | hy
    · exact List.mem_cons_self _ _
    · exact hb0.2 y hy
  have hbs := bsearch_spec cmp x b0 hokx hb0.1
  have hlk : hashset_lookup bks hash cmp x
      = match bsearch cmp x b0 with
        | none => none
        | some vec_position => some (b0.getD vec_position x) := rfl
  refine ⟨hsorted, ?_, ?_⟩
  · rw [hlk]
    cases hfind : bsearch cmp x b0 with
    | none =>
        rw [hfind] at hbs
        exact ⟨fun _ => hbs, fun _ => rfl⟩
    | some pos =>
        rw [hfind] at hbs
        constructor
        · intro h
          exact absurd h (Option.some_ne_none _)
        · intro h
          have hmem : b0.getD pos x ∈ b0 := by
            rw [List.getD_eq_getElem b0 x hbs.1]
            exact List.getElem_mem hbs.1
          exact absurd hbs.2 (h _ hmem)
  · intro y hy
    rw [hlk] at hy
    cases hfind : bsearch cmp x b0 with
    | none =>
        rw [hfind] at hy
        exact absurd hy (by simp)
    | some pos =>
        rw [hfind] at hy hbs
        have hyv : b0.getD pos x = y := by
          simpa using hy
        have hmem : b0.getD pos x ∈ b0 := by
          rw [List.getD_eq_getElem b0 x hbs.1]
          exact List.getElem_mem hbs.1
        exact ⟨hyv ▸ hmem, hyv ▸ hbs.2⟩

/-- Concrete run of C10: entering 3, 1, 5, then 1 again into a 2-bucket set
with hash `v mod 2` leaves bucket 1 sorted as `[1, 3, 5]`, and lookup of 3
hits it. -/
theorem C10_hashset_sorted_buckets_witness :
    (∀ b ∈ applyEnters 2 (fun v : ℤ => v.toNat % 2) (fun a b => a - b) [3, 1, 5, 1],
       b.Pairwise (fun a c => a - c ≤ 0)) ∧
    hashset_lookup
        (applyEnters 2 (fun v : ℤ => v.toNat % 2) (fun a b => a - b) [3, 1, 5, 1])
        (fun v : ℤ => v.toNat % 2) (fun a b => a - b) 3 = some 3 := by
  have h := C10_hashset_sorted_buckets 2 (fun v : ℤ => v.toNat % 2)
    (fun a b => a - b) [3, 1, 5, 1] 3 (by decide)
  exact ⟨h.1, by decide⟩

/-! ## C7: the fragment-reassembly pass (reassemble.c, assign1)

The fragment array is a fixed-size array of `char *`; a freed slot is set to
`NULL`.  We model it as a `List (Option CStr)` of the array's length, with
loop indices bounded by the live count `n_elems`.  `reassemble_pass`
(lines 293-356) scans all pairs `i < j`, eliminates contained fragments
(`nullify_entry`), tracks the best overlap pair, then runs `merge` (lines
217-238), `nullify_entry`, `squeeze` (lines 265-280) and
`count_logical_elems` (lines 246-255).  Undefined behaviour the control flow
reaches — `strlen(NULL)` in `merge` when a recorded fragment was nullified
later in the scan, and `free(a[-1])` when no merge candidate was recorded —
is modelled as a `none` ("crash") result. -/

/-- The `strchr`-driven scan of `find_max_overlap` (lines 160-194): walk the
occurrences of `s1[0]` in `s2` left to right; at the suffix of `s2` starting
there, the persistently truncated clone of `s1` equals that suffix exactly
when the suffix is a prefix of `s1`, and the first (longest) such suffix
length is returned. -/
def fmoAux (s1 : CStr) (c : ℕ) : CStr → ℕ
  | [] => 0
  | d :: t =>
      if d = c ∧ (d :: t) = s1.take (d :: t).length then (d :: t).length
      else fmoAux s1 c t

/-- Embedding of `find_max_overlap s1 s2`: the longest length `n` such that
the suffix of `s2` of length `n` is a prefix of `s1` (0 when none, and 0 for
an empty `s1`, where `strchr` finds the terminator at once). -/
def find_max_overlap (s1 s2 : CStr) : ℕ :=
  match s1 with
  | [] => 0
  | c :: _ => fmoAux s1 c s2

/-- The scan state of `reassemble_pass`: the fragment array and the
`max_overlap` / `first_in_merge` / `second_in_merge` ints (all start at -1). -/
structure ScanSt where
  a : List (Option CStr)
  max_overlap : ℤ
  first_in_merge : ℤ
  second_in_merge : ℤ
deriving DecidableEq

/-- The overlap bookkeeping of one (i, j) pair (lines 332-347): skip when
neither length can beat `max_overlap`, else try `find_max_overlap` in both
directions. -/
def scanPair (st : ScanSt) (s1 s2 : CStr) (i j : ℕ) : ScanSt :=
  if (s1.length : ℤ) ≤ st.max_overlap ∧ (s2.length : ℤ) ≤ st.max_overlap then st
  else
    let overlap1 := find_max_overlap s1 s2
    let st1 :=
      if st.max_overlap < (overlap1 : ℤ) then
        { st with max_overlap := overlap1, first_in_merge := i, second_in_merge := j }
      else st
    let overlap2 := find_max_overlap s2 s1
    if st1.max_overlap < (overlap2 : ℤ) then
      { st1 with max_overlap := overlap2, first_in_merge := j, second_in_merge := i }
    else st1

/-- The inner `j` loop of the pair scan (lines 306-348): skip `NULL` slots,
eliminate a contained `a[j]` (`nullify_entry`, `continue`) or a contained
`a[i]` (`nullify_entry`, `break` — the early return), else record overlaps.
`fuel` bounds the loop (`n` iterations at most, `j` counts up to `n`). -/
def passInner (i n : ℕ) : ℕ → ℕ → ScanSt → ScanSt
  | 0, _, st => st
  | fuel + 1, j, st =>
      if j < n then
        match st.a.getD i none, st.a.getD j none with
        | some s1, some s2 =>
            if s1.length ≥ s2.length then
              if s2.IsInfix s1 then
                passInner i n fuel (j + 1) { st with a := st.a.set j none }
              else passInner i n fuel (j + 1) (scanPair st s1 s2 i j)
            else
              if s1.IsInfix s2 then { st with a := st.a.set i none }
              else passInner i n fuel (j + 1) (scanPair st s1 s2 i j)
        | _, _ => passInner i n fuel (j + 1) st
      else st

/-- The outer `i` loop of the pair scan (lines 302-349). -/
def passOuter (n : ℕ) : ℕ → ℕ → ScanSt → ScanSt
  | 0, _, st => st
  | fuel + 1, i, st =>
      if i < n then
        if st.a.getD i none = none then passOuter n fuel (i + 1) st
        else passOuter n fuel (i + 1) (passInner i n n (i + 1) st)
      else st

/-- Embedding of `merge` (lines 217-238): a no-op when either index is
negative; otherwise concatenate all of `s2` with `s1` past the overlap into
slot `ndx1`.  `strlen` on a `NULL` fragment (one the scan nullified after
recording it) is the crash `none`. -/
def merge (a : List (Option CStr)) (ndx1 ndx2 overlap : ℤ) :
    Option (List (Option CStr)) :=
  if ndx1 < 0 ∨ ndx2 < 0 then some a
  else
    match a.getD ndx1.toNat none, a.getD ndx2.toNat none with
    | some s1, some s2 => some (a.set ndx1.toNat (some (s2 ++ s1.drop overlap.toNat)))
    | _, _ => none

/-- The inner loop of `squeeze` (lines 271-277): walk `j` down from
`n_elems - 1` to `i + 1`, move the first live fragment found into hole `i`. -/
def squeezeInner (a : List (Option CStr)) (i : ℕ) : ℕ → List (Option CStr)
  | 0 => a
  | j + 1 =>
      if i < j + 1 then
        match a.getD (j + 1) none with
        | some s => (a.set i (some s)).set (j + 1) none
        | none => squeezeInner a i j
      else a

/-- The outer loop of `squeeze` (lines 265-280). -/
def squeezeAux : ℕ → ℕ → ℕ → List (Option CStr) → List (Option CStr)
  | 0, _, _, a => a
  | fuel + 1, i, n, a =>
      if i < n then
        if a.getD i none = none then
          squeezeAux fuel (i + 1) n (squeezeInner a i (n - 1))
        else squeezeAux fuel (i + 1) n a
      else a

/-- Embedding of `squeeze`. -/
def squeeze (a : List (Option CStr)) (n : ℕ) : List (Option CStr) :=
  squeezeAux n 0 n a

/-- Embedding of `count_logical_elems` (lines 246-255): live elements before
the first `NULL`. -/
def count_logical_elems : List (Option CStr) → ℕ
  | [] => 0
  | none :: _ => 0
  | some _ :: t => 1 + count_logical_elems t

/-- Embedding of `reassemble_pass` (lines 293-356): scan all pairs, then
`merge`, `nullify_entry` on `second_in_merge`, `squeeze`, and return the new
live count.  The post-scan `nullify_entry(a, n_elems, second_in_merge)` with
`second_in_merge = -1` passes the `assert(ndx < n_elems)` and then frees
`a[-1]` — the crash `none`; so is a `merge` that reads a nullified slot. -/
def reassemble_pass (a : List (Option CStr)) (n_elems : ℕ) :
    Option (List (Option CStr) × ℕ) :=
  let st := passOuter n_elems n_elems 0 ⟨a, -1, -1, -1⟩
  match merge st.a st.first_in_merge st.second_in_merge st.max_overlap with
  | none => none
  | some a1 =>
      if st.second_in_merge < 0 then none
      else if (n_elems : ℤ) ≤ st.second_in_merge then none
      else
        let a2 := a1.set st.second_in_merge.toNat none
        let a3 := squeeze a2 n_elems
        some (a3, count_logical_elems a3)

/-- Embedding of `reassemble` (lines 366-371): run passes while more than one
fragment is live, propagating a crash; `fuel` bounds the while loop. -/
def reassemble (fuel : ℕ) (a : List (Option CStr)) (n_elems : ℕ) :
    Option (List (Option CStr)) :=
  match fuel with
  | 0 => if n_elems ≤ 1 then some a else none
  | fuel + 1 =>
      if 1 < n_elems then
        match reassemble_pass a n_elems with
        | none => none
        | some (a', n') => reassemble fuel a' n'
      else some a

/-- C7: the claim fails on the code.  On the three live fragments
`ab`, `bc`, `xaby`, the scan first records the winning overlap pair
(`first_in_merge`=1, `second_in_merge`=0, overlap 1 between `bc` and `ab`),
then the containment check of the pair (0,2) frees `a[0]` (`ab` is inside
`xaby`), and the post-scan `merge` calls `strlen` on the freed `NULL` slot:
the pass crashes instead of completing with a smaller live count, and the
loop never reaches a single fragment.  On the spec's own two-fragment test
`hello` / `hello world` the containment pass records no merge pair and
`nullify_entry` frees `a[-1]`.  (On inputs avoiding these paths the
embedding does reassemble: `abc`/`bcd`/`def` ends in the single fragment
`abcdef`.) -/
theorem C7_reassemble_pass_crash :
    count_logical_elems [some (str "ab"), some (str "bc"), some (str "xaby")] = 3 ∧
    reassemble_pass [some (str "ab"), some (str "bc"), some (str "xaby")] 3 = none ∧
    reassemble 5 [some (str "ab"), some (str "bc"), some (str "xaby")] 3 = none ∧
    reassemble_pass [some (str "hello"), some (str "hello world")] 2 = none ∧
    reassemble 5 [some (str "abc"), some (str "bcd"), some (str "def")] 3
      = some [some (str "abcdef"), none, none] := by
  refine ⟨by decide, by decide, by decide, by decide, by decide⟩

